import Mathlib

/-! # loadCell: driver for an ADS1118 ADC behind a strain-gauge amplifier

Shallow embedding of `src/loadCell.cpp` and `src/loadCell.h`.

Machine types are those of the AVR target the sketch is written for:
`byte` is 8 bit unsigned, `int` is 16 bit two's complement and `long int` is
32 bit two's complement.  Bytes are natural numbers narrowed with `toByte`,
`int` and `long int` values are integers narrowed with `toInt` and `toLong`.

The member functions read the class members `m_CS_pin`, `m_gain`, `m_offset`,
`m_configHighByte`, `m_configLowByte`, `m_multiplier` and the file-scope
variables `m_noOfAverages`, `m_averIndex`, `m_averageStore`, `m_bAverage`.
The file-scope duplicates of the six class members are never touched by any
member function and are left out.

The collaborators (`pinMode`, `digitalWrite`, `SPI`, `delay`) are recorded as a
trace of events; the bytes the ADC shifts out are an input stream `miso`,
indexed by the number of transfers made so far.
-/

namespace LoadCell

/-! ## Machine integers -/

/-- Narrowing to `byte`: the low 8 bits. -/
def toByte (n : Nat) : Nat := n % 256

/-- Narrowing to `int`: the low 16 bits read as two's complement. -/
def toInt (x : Int) : Int := (x + 32768) % 65536 - 32768

/-- Narrowing to `long int`: the low 32 bits read as two's complement. -/
def toLong (x : Int) : Int := (x + 2147483648) % 4294967296 - 2147483648

/-- Range of a value of type `int`. -/
def isInt (x : Int) : Prop := -32768 ≤ x ∧ x ≤ 32767

instance (x : Int) : Decidable (isInt x) := by
  unfold isInt; infer_instance

/-! ## State -/

/-- Calls made to the Arduino core and the SPI library. -/
inductive HwEvent where
  | pinModeOutput (pin : Nat)
  | digitalWrite (pin : Nat) (high : Bool)
  | spiBegin
  | spiSetClockDivider64
  | spiSetDataMode1
  | spiTransfer (out : Nat)
  | delay (ms : Nat)
  deriving DecidableEq

/-- Length of `m_averageStore` (`_averageLength_`). -/
def averageLength : Nat := 32

/-- The variables of `loadCell.cpp` together with the hardware they talk to.
`F` stands for the type `float`. -/
structure State (F : Type) where
  /-- byte: chip-select pin -/
  m_CS_pin : Nat
  /-- byte: declared, never read or written -/
  m_gain : Nat
  /-- int -/
  m_offset : Int
  /-- byte -/
  m_configHighByte : Nat
  /-- byte -/
  m_configLowByte : Nat
  /-- float -/
  m_multiplier : F
  /-- byte -/
  m_noOfAverages : Nat
  /-- byte -/
  m_averIndex : Nat
  /-- int array of `_averageLength_` entries -/
  m_averageStore : List Int
  /-- boolean -/
  m_bAverage : Bool
  /-- byte shifted out by the ADC during the k-th transfer -/
  miso : Nat → Nat
  /-- number of transfers made so far -/
  clock : Nat
  /-- calls made to the collaborators, oldest first -/
  trace : List HwEvent

variable {F : Type}

/-- Memory of the sketch before the constructor runs: statics are zeroed,
`m_noOfAverages = 0` and `m_bAverage = false` by their initialisers. -/
def powerOn (mult : F) (miso : Nat → Nat) : State F :=
  { m_CS_pin := 0, m_gain := 0, m_offset := 0, m_configHighByte := 0,
    m_configLowByte := 0, m_multiplier := mult, m_noOfAverages := 0,
    m_averIndex := 0, m_averageStore := List.replicate averageLength 0,
    m_bAverage := false, miso := miso, clock := 0, trace := [] }

/-! ## Collaborators -/

/-- Arduino `pinMode(pin, OUTPUT)`. -/
def pinModeOutput (s : State F) (pin : Nat) : State F :=
  { s with trace := s.trace ++ [HwEvent.pinModeOutput pin] }

/-- Arduino `digitalWrite(pin, level)`. -/
def digitalWrite (s : State F) (pin : Nat) (high : Bool) : State F :=
  { s with trace := s.trace ++ [HwEvent.digitalWrite pin high] }

/-- Arduino `delay(ms)`. -/
def delay (s : State F) (ms : Nat) : State F :=
  { s with trace := s.trace ++ [HwEvent.delay ms] }

/-- The three set-up calls `SPI.begin()`, `SPI.setClockDivider(SPI_CLOCK_DIV64)`,
`SPI.setDataMode(SPI_MODE1)`. -/
def spiSetup (s : State F) : State F :=
  { s with trace := s.trace ++
      [HwEvent.spiBegin, HwEvent.spiSetClockDivider64, HwEvent.spiSetDataMode1] }

/-- Full-duplex `SPI.transfer(out)`: shifts `out` to the device and returns the
byte the device shifts back. -/
def spiTransfer (s : State F) (out : Nat) : Nat × State F :=
  (toByte (s.miso s.clock),
   { s with clock := s.clock + 1, trace := s.trace ++ [HwEvent.spiTransfer out] })

/-! ## The driver -/

/-- Constructor `loadCell::loadCell(byte pin)`, run on the memory `s`. -/
def loadCell (s : State F) (pin : Nat) : State F :=
  let s := pinModeOutput s pin
  let s := digitalWrite s pin true
  { s with
    m_CS_pin := pin
    m_noOfAverages := 0
    m_averIndex := 0
    m_averageStore :=
      (List.range averageLength).foldl (fun st ix => st.set ix 0) s.m_averageStore
    m_bAverage := false }

/-- Source function `loadCell::init_ADC`. -/
def init_ADC (s : State F) : State F :=
  let s := spiSetup s
  let s := { s with m_configHighByte := 0x34 }
  let s := { s with m_configLowByte := 0xE2 }
  let s := { s with m_offset := 0 }
  let s := digitalWrite s s.m_CS_pin false
  let s := (spiTransfer s s.m_configHighByte).2
  let s := (spiTransfer s s.m_configLowByte).2
  digitalWrite s s.m_CS_pin true

/-- Source function `loadCell::read_ADC`.  `(int(tempHigh) << 8) | tempLow` is
computed on the 16 bit pattern and read back as an `int`. -/
def read_ADC (s : State F) : Int × State F :=
  let s := digitalWrite s s.m_CS_pin false
  let hi := spiTransfer s s.m_configHighByte
  let tempHigh := hi.1
  let lo := spiTransfer hi.2 hi.2.m_configLowByte
  let tempLow := lo.1
  let s := digitalWrite lo.2 lo.2.m_CS_pin true
  (toInt (((tempHigh <<< 8) ||| tempLow : Nat) : Int), s)

/-- Source function `loadCell::setGain`; `gain` is a byte. -/
def setGain (s : State F) (gain : Nat) : Nat × State F :=
  let s := { s with m_configHighByte := toByte (s.m_configHighByte &&& 0xF1) }
  if 0 < gain ∧ gain ≤ 0x05 then
    (toByte (0x01 <<< (gain - 1)),
     { s with m_configHighByte := toByte (s.m_configHighByte ||| (gain <<< 1)) })
  else
    (2, { s with m_configHighByte := toByte (s.m_configHighByte ||| (0x02 <<< 1)) })

/-- Source function `loadCell::getRawValue`. -/
def getRawValue (s : State F) (bUseOffset : Bool) : Int × State F :=
  let r := read_ADC s
  let tempLong : Int := toLong r.1
  let tempLong : Int :=
    if bUseOffset then
      let t := toLong (tempLong - r.2.m_offset)
      let t := if t > 32767 then 32767 else t
      if t < -32768 then -32768 else t
    else tempLong
  (toInt tempLong, r.2)

/-- The body of the `for` loop of `loadCell::tare`, run `n` times:
`tempOffset += read_ADC(); delay(1);`. -/
def tareLoop : Nat → Int → State F → Int × State F
  | 0, tempOffset, s => (tempOffset, s)
  | n + 1, tempOffset, s =>
    let r := read_ADC s
    tareLoop n (toLong (tempOffset + r.1)) (delay r.2 1)

/-- Source function `loadCell::tare`. -/
def tare (s : State F) : State F :=
  let r := tareLoop 64 0 s
  { r.2 with m_offset := toInt (toLong (Int.tdiv r.1 64)) }

/-- Source function `loadCell::setFloatMultiplier`. -/
def setFloatMultiplier (s : State F) (multiplier : F) : State F :=
  { s with m_multiplier := multiplier }

/-- Source function `loadCell::setOffset`; `offset` is an `int`. -/
def setOffset (s : State F) (offset : Int) : State F :=
  { s with m_offset := offset }

/-- The summing loop of `loadCell::calcAverages` over slots `0 .. n-1`. -/
def sumStore (store : List Int) (n : Nat) : Int :=
  (List.range n).foldl (fun tempLong ix => toLong (tempLong + store.getD ix 0)) 0

/-- Source function `loadCell::calcAverages`; `newValue` is an `int`.  The
result is `none` where the C++ has no defined behaviour: an access outside
`m_averageStore` or a division by zero. -/
def calcAverages (s : State F) (newValue : Int) : Option (Int × State F) :=
  let s := { s with m_averIndex := toByte (s.m_averIndex + 1) }
  let s := if s.m_averIndex ≥ s.m_noOfAverages then { s with m_averIndex := 0 } else s
  if averageLength ≤ s.m_averIndex then none
  else
    let s := { s with m_averageStore := s.m_averageStore.set s.m_averIndex newValue }
    if averageLength < s.m_noOfAverages then none
    else if s.m_noOfAverages = 0 then none
    else
      let tempLong := sumStore s.m_averageStore s.m_noOfAverages
      some (toInt (toLong (Int.tdiv tempLong (s.m_noOfAverages : Int))), s)

/-- Source function `loadCell::getFloatValue`.  The conversion `float(int)` and
the `float` product are parameters. -/
def getFloatValue (ofInt : Int → F) (mul : F → F → F) (s : State F) :
    Option (F × State F) :=
  if s.m_bAverage then
    let r := getRawValue s true
    match calcAverages r.2 r.1 with
    | none => none
    | some a => some (mul (ofInt a.1) a.2.m_multiplier, a.2)
  else
    let r := getRawValue s true
    some (mul (ofInt r.1) r.2.m_multiplier, r.2)

/-- Source function `loadCell::setNoOfAverages`; `averages` is a byte. -/
def setNoOfAverages (s : State F) (averages : Nat) : State F :=
  let s := if averages ≤ 32 then
      { s with m_noOfAverages := averages, m_bAverage := true }
    else s
  if averages = 0 then { s with m_bAverage := false } else s

/-! ## Readings of the state used in the statements -/

/-- The PGA field: bits 3..1 of `m_configHighByte`. -/
def pgaField (s : State F) : Nat := (s.m_configHighByte >>> 1) &&& 0x07

/-- The bits of `m_configHighByte` outside the PGA field: bits 7..4 and bit 0. -/
def nonGainBits (s : State F) : Nat := s.m_configHighByte &&& 0xF1

/-- The raw code delivered by the `k`-th read that follows state `s`: the two
bytes the device shifts out during transfers `clock + 2k` and `clock + 2k + 1`,
high byte first. -/
def sample (s : State F) (k : Nat) : Int :=
  toInt ((((toByte (s.miso (s.clock + 2 * k)) <<< 8)
    ||| toByte (s.miso (s.clock + 2 * k + 1)) : Nat)) : Int)

/-- The events of one `read_ADC` frame. -/
def readFrame (s : State F) : List HwEvent :=
  [HwEvent.digitalWrite s.m_CS_pin false, HwEvent.spiTransfer s.m_configHighByte,
   HwEvent.spiTransfer s.m_configLowByte, HwEvent.digitalWrite s.m_CS_pin true]

/-- Pushes the values `vs` through `calcAverages` one after another and
collects the returned means. -/
def pushAll : State F → List Int → Option (List Int × State F)
  | s, [] => some ([], s)
  | s, v :: vs =>
    match calcAverages s v with
    | none => none
    | some a =>
      match pushAll a.2 vs with
      | none => none
      | some b => some (a.1 :: b.1, b.2)

/-- The write index that `calcAverages` moves to from `idx` with window `n`:
`m_averIndex++; if (m_averIndex >= m_noOfAverages) m_averIndex = 0;`. -/
def nextIndex (idx n : Nat) : Nat :=
  if toByte (idx + 1) ≥ n then 0 else toByte (idx + 1)

/-- The slot written `t` pushes before the one at `idx`, in a ring of `n`
slots. -/
def slotBehind (idx n t : Nat) : Nat :=
  if t ≤ idx then idx - t else idx + n - t

/-- Type constraints of the averaging variables once the window is `n`:
`m_averageStore` has 32 entries, all of type `int`, and `1 ≤ n ≤ 32`. -/
def FilterOK (n : Nat) (s : State F) : Prop :=
  s.m_noOfAverages = n ∧ 1 ≤ n ∧ n ≤ 32
    ∧ s.m_averageStore.length = 32 ∧ ∀ x ∈ s.m_averageStore, isInt x

/-- The buffer of `s` holds the pushed values `hist` (latest first) in the
slots behind the write index, as far as the window `n` reaches. -/
def Tracks (n : Nat) (s : State F) (hist : List Int) : Prop :=
  (hist ≠ [] → s.m_averIndex < n)
    ∧ ∀ t, t < hist.length → t < n →
        s.m_averageStore.getD (slotBehind s.m_averIndex n t) 0 = hist.getD t 0

/-- Saturation to the `int` range, as the spec words the clipping of
`getRawValue`. -/
def clamp16 (x : Int) : Int :=
  if x > 32767 then 32767 else if x < -32768 then -32768 else x

/-- The public member functions, with their arguments. -/
inductive Call (F : Type) where
  | init_ADC
  | getRawValue (bUseOffset : Bool)
  | tare
  | setFloatMultiplier (multiplier : F)
  | getFloatValue
  | setGain (gain : Nat)
  | setOffset (offset : Int)
  | setNoOfAverages (averages : Nat)

/-- One call of a public member function; `none` where the call has no defined
behaviour. -/
def call (ofInt : Int → F) (mul : F → F → F) (s : State F) : Call F → Option (State F)
  | Call.init_ADC => some (init_ADC s)
  | Call.getRawValue b => some (getRawValue s b).2
  | Call.tare => some (tare s)
  | Call.setFloatMultiplier m => some (setFloatMultiplier s m)
  | Call.getFloatValue => (getFloatValue ofInt mul s).map Prod.snd
  | Call.setGain g => some (setGain s g).2
  | Call.setOffset o => some (setOffset s o)
  | Call.setNoOfAverages n => some (setNoOfAverages s n)

/-- A sequence of calls, one after another. -/
def run (ofInt : Int → F) (mul : F → F → F) : State F → List (Call F) → Option (State F)
  | s, [] => some s
  | s, c :: cs =>
    match call ofInt mul s c with
    | none => none
    | some s1 => run ofInt mul s1 cs

/-- The variables of the averaging filter are in the state the code relies on:
the flag is set exactly for a window of 1..32, the window is at most 32, the
write index is inside the 32 slots of `m_averageStore`. -/
def AveragingOK (s : State F) : Prop :=
  (s.m_bAverage = true ↔ (1 ≤ s.m_noOfAverages ∧ s.m_noOfAverages ≤ 32))
    ∧ s.m_noOfAverages ≤ 32 ∧ s.m_averIndex < 32 ∧ s.m_averageStore.length = 32

/-! ## Concrete devices -/

/-- A freshly constructed device on pin 10. -/
def fresh : State Int := loadCell (powerOn 1 (fun _ => 0)) 10

/-- A device on pin 10 after construction and `init_ADC`, with a silent bus. -/
def started : State Int := init_ADC (loadCell (powerOn 1 (fun _ => 0)) 10)

/-- A device on pin 10 after construction and `init_ADC` whose ADC shifts out
`hi` on even transfers and `lo` on odd ones. -/
def wired (hi lo : Nat) : State Int :=
  init_ADC (loadCell (powerOn 1 (fun k => if k % 2 = 0 then hi else lo)) 10)

/-- A session that uses every public member function. -/
def session : List (Call Int) :=
  [Call.setGain 5, Call.setNoOfAverages 4, Call.getFloatValue, Call.tare,
   Call.setOffset (-40000), Call.getRawValue true, Call.setFloatMultiplier 7,
   Call.setGain 200, Call.setNoOfAverages 40, Call.getFloatValue,
   Call.setNoOfAverages 2, Call.getFloatValue, Call.getRawValue false,
   Call.init_ADC, Call.setGain 3, Call.setNoOfAverages 0, Call.getFloatValue,
   Call.setNoOfAverages 3, Call.getFloatValue]

/-! # Theorems -/

/-! ## Machine integers -/

theorem isInt_toInt (x : Int) : isInt (toInt x) := by
  unfold isInt toInt; omega

theorem toInt_of_isInt {x : Int} (h : isInt x) : toInt x = x := by
  unfold isInt at h; unfold toInt; omega

theorem toLong_of_bounds {x : Int} (h1 : -2147483648 ≤ x) (h2 : x ≤ 2147483647) :
    toLong x = x := by
  unfold toLong; omega

theorem bigEndian_word (hi lo : Nat) (h : lo < 256) :
    (hi <<< 8) ||| lo = hi * 256 + lo := by
  have e := Nat.mul_add_lt_is_or (i := 8) (b := lo) (by simpa using h) hi
  simp only [Nat.reducePow] at e
  rw [Nat.shiftLeft_eq, Nat.mul_comm hi (2 ^ 8)]
  simp only [Nat.reducePow]
  exact e.symm

theorem tdiv_cases (a b : Int) (hb : 0 < b) :
    a.tdiv b = if 0 ≤ a then a / b else -((-a) / b) := by
  split
  · exact Int.tdiv_eq_ediv ‹_› hb.le
  · rw [← Int.tdiv_eq_ediv (by omega) hb.le, Int.neg_tdiv, neg_neg]

/-- The truncated mean of a total that lies between `n` times the least and
`n` times the greatest `int` is an `int`. -/
theorem isInt_tdiv (a : Int) (n : Nat) (hn : 0 < n)
    (h1 : -32768 * (n : Int) ≤ a) (h2 : a ≤ 32767 * (n : Int)) :
    isInt (a.tdiv n) := by
  have hb : (0 : Int) < n := by exact_mod_cast hn
  rw [tdiv_cases a n hb]
  unfold isInt
  split
  · rename_i h0
    have h3 : a / (n : Int) ≤ 32767 := Int.ediv_le_of_le_mul hb h2
    have h4 : 0 ≤ a / (n : Int) := Int.ediv_nonneg h0 hb.le
    omega
  · have h3 : (-a) / (n : Int) ≤ 32768 := Int.ediv_le_of_le_mul hb (by omega)
    have h4 : 0 ≤ (-a) / (n : Int) := Int.ediv_nonneg (by omega) hb.le
    omega

/-! ## Sample transport -/

theorem isInt_sample (s : State F) (k : Nat) : isInt (sample s k) :=
  isInt_toInt _

theorem read_ADC_eq (s : State F) :
    read_ADC s = (sample s 0,
      { s with clock := s.clock + 2, trace := s.trace ++ readFrame s }) := by
  simp [read_ADC, sample, spiTransfer, digitalWrite, readFrame]

/-- C6: for every pair of bytes `hi`, `lo` the device shifts out during the two
transfers of a read, `read_ADC` returns the big-endian word `hi * 256 + lo`
read as a 16 bit two's complement number; the value is an `int` and is the
same whatever configuration bytes are shifted out to the device. -/
theorem read_ADC_value (s : State F) (hi lo : Nat)
    (hhi : toByte (s.miso s.clock) = hi) (hlo : toByte (s.miso (s.clock + 1)) = lo) :
    (read_ADC s).1
        = (if hi < 128 then (hi : Int) * 256 + lo else (hi : Int) * 256 + lo - 65536)
      ∧ isInt (read_ADC s).1
      ∧ ∀ cfgHigh cfgLow : Nat,
          (read_ADC { s with m_configHighByte := cfgHigh, m_configLowByte := cfgLow }).1
            = (read_ADC s).1 := by
  have hhi' : hi < 256 := by rw [← hhi]; exact Nat.mod_lt _ (by decide)
  have hlo' : lo < 256 := by rw [← hlo]; exact Nat.mod_lt _ (by decide)
  refine ⟨?_, ?_, ?_⟩
  · rw [read_ADC_eq]
    simp only [sample, Nat.mul_zero, Nat.add_zero, hhi, hlo]
    rw [bigEndian_word hi lo hlo']
    unfold toInt
    push_cast
    split <;> omega
  · rw [read_ADC_eq]; exact isInt_sample s 0
  · intro cfgHigh cfgLow
    rw [read_ADC_eq, read_ADC_eq]
    rfl

theorem read_ADC_value_witness :
    (read_ADC (wired 0xFF 0x38)).1
        = (if 0xFF < 128 then ((0xFF : Nat) : Int) * 256 + (0x38 : Nat)
            else ((0xFF : Nat) : Int) * 256 + (0x38 : Nat) - 65536)
      ∧ isInt (read_ADC (wired 0xFF 0x38)).1
      ∧ ∀ cfgHigh cfgLow : Nat,
          (read_ADC { wired 0xFF 0x38 with
              m_configHighByte := cfgHigh, m_configLowByte := cfgLow }).1
            = (read_ADC (wired 0xFF 0x38)).1 :=
  read_ADC_value (wired 0xFF 0x38) 0xFF 0x38 (by decide) (by decide)

/-! ## Calibration store -/

/-- C5: with stored offset `o` (an `int`) and the transport delivering the raw
code `r`, `getRawValue(true)` returns `r - o` saturated to the `int` range:
`r - o` itself when it fits, 32767 above and -32768 below. -/
theorem getRawValue_offset (s : State F) (r o : Int) (ho : isInt o)
    (hoff : s.m_offset = o) (hr : sample s 0 = r) :
    (-32768 ≤ r - o → r - o ≤ 32767 → (getRawValue s true).1 = r - o)
      ∧ (r - o > 32767 → (getRawValue s true).1 = 32767)
      ∧ (r - o < -32768 → (getRawValue s true).1 = -32768) := by
  have hri : isInt r := hr ▸ isInt_sample s 0
  have hv : (getRawValue s true).1
      = toInt (if (if toLong (toLong r - o) > 32767 then 32767 else toLong (toLong r - o))
            < -32768 then -32768
          else (if toLong (toLong r - o) > 32767 then 32767 else toLong (toLong r - o))) := by
    simp [getRawValue, read_ADC_eq, hr, hoff]
  unfold isInt at ho hri
  have e1 : toLong r = r := toLong_of_bounds (by omega) (by omega)
  have e2 : toLong (r - o) = r - o := toLong_of_bounds (by omega) (by omega)
  rw [hv, e1, e2]
  unfold toInt
  refine ⟨?_, ?_, ?_⟩
  · intro h1 h2
    split_ifs <;> omega
  · intro h1
    split_ifs <;> omega
  · intro h1
    split_ifs <;> omega

theorem getRawValue_offset_witness :
    (((-32768 : Int) ≤ 4626 - 26 ∧ (4626 : Int) - 26 ≤ 32767) ∧
        (getRawValue (setOffset (wired 0x12 0x12) 26) true).1 = 4626 - 26)
      ∧ ((32767 : Int) - (-5) > 32767 ∧
        (getRawValue (setOffset (wired 0x7F 0xFF) (-5)) true).1 = 32767)
      ∧ ((-32768 : Int) - 1 < -32768 ∧
        (getRawValue (setOffset (wired 0x80 0x00) 1) true).1 = -32768) :=
  ⟨⟨by decide,
    (getRawValue_offset (setOffset (wired 0x12 0x12) 26) 4626 26
      (by decide) rfl (by decide)).1 (by decide) (by decide)⟩,
   ⟨by decide,
    (getRawValue_offset (setOffset (wired 0x7F 0xFF) (-5)) 32767 (-5)
      (by decide) rfl (by decide)).2.1 (by decide)⟩,
   ⟨by decide,
    (getRawValue_offset (setOffset (wired 0x80 0x00) 1) (-32768) 1
      (by decide) rfl (by decide)).2.2 (by decide)⟩⟩

theorem getRawValue_snd (s : State F) (b : Bool) :
    (getRawValue s b).2
      = { s with clock := s.clock + 2, trace := s.trace ++ readFrame s } := by
  simp only [getRawValue, read_ADC_eq]

theorem getRawValue_false_eq (s : State F) :
    getRawValue s false
      = (sample s 0, { s with clock := s.clock + 2, trace := s.trace ++ readFrame s }) := by
  have hs := isInt_sample s 0
  have e2 := toInt_of_isInt hs
  unfold isInt at hs
  have e1 : toLong (sample s 0) = sample s 0 := toLong_of_bounds (by omega) (by omega)
  simp [getRawValue, read_ADC_eq, e1, e2]

theorem getRawValue_true_eq (s : State F) (ho : isInt s.m_offset) :
    getRawValue s true
      = (clamp16 (sample s 0 - s.m_offset),
         { s with clock := s.clock + 2, trace := s.trace ++ readFrame s }) := by
  have hs := isInt_sample s 0
  unfold isInt at hs ho
  have e1 : toLong (sample s 0) = sample s 0 := toLong_of_bounds (by omega) (by omega)
  have e2 : toLong (sample s 0 - s.m_offset) = sample s 0 - s.m_offset :=
    toLong_of_bounds (by omega) (by omega)
  have e3 : toInt (if (if sample s 0 - s.m_offset > 32767 then 32767
        else sample s 0 - s.m_offset) < -32768 then -32768
      else (if sample s 0 - s.m_offset > 32767 then 32767 else sample s 0 - s.m_offset))
      = clamp16 (sample s 0 - s.m_offset) := by
    unfold toInt clamp16
    split_ifs <;> omega
  simp only [getRawValue, read_ADC_eq, e1, e2, if_true]
  rw [e3]

theorem isInt_clamp16 (x : Int) : isInt (clamp16 x) := by
  unfold isInt clamp16
  split_ifs <;> omega

theorem sample_wired (hi lo k : Nat) :
    sample (wired hi lo) k = toInt (((toByte hi <<< 8) ||| toByte lo : Nat) : Int) := by
  have e1 : (2 + 2 * k) % 2 = 0 := by omega
  have e2 : (2 + 2 * k + 1) % 2 = 1 := by omega
  simp [sample, wired, init_ADC, loadCell, powerOn, spiTransfer, digitalWrite,
    pinModeOutput, spiSetup, e1, e2]

/-- Every `int` is the raw code of some pair of device bytes. -/
theorem sample_wired_surjective (r : Int) (hr : isInt r) :
    ∃ hi lo : Nat, hi < 256 ∧ lo < 256 ∧ ∀ k, sample (wired hi lo) k = r := by
  unfold isInt at hr
  refine ⟨((r % 65536) / 256).toNat, (r % 256).toNat, by omega, by omega, ?_⟩
  intro k
  have h1 : toByte ((r % 65536) / 256).toNat = ((r % 65536) / 256).toNat := by
    unfold toByte; omega
  have h2 : toByte (r % 256).toNat = (r % 256).toNat := by
    unfold toByte; omega
  rw [sample_wired, h1, h2, bigEndian_word _ _ (by omega)]
  unfold toInt
  push_cast
  omega

theorem sample_shift (s : State F) (t : List HwEvent) (k : Nat) :
    sample { s with clock := s.clock + 2, trace := t } k = sample s (k + 1) := by
  have e1 : s.clock + 2 + 2 * k = s.clock + 2 * (k + 1) := by ring
  have e2 : s.clock + 2 + 2 * k + 1 = s.clock + 2 * (k + 1) + 1 := by ring
  simp only [sample, e1, e2]

theorem tareLoop_eq (n : Nat) : ∀ (acc : Int) (s : State F),
    -2147483648 + 32768 * (n : Int) ≤ acc → acc + 32768 * (n : Int) ≤ 2147483647 →
    tareLoop n acc s = (acc + ∑ k ∈ Finset.range n, sample s k,
      { s with
        clock := s.clock + 2 * n
        trace := s.trace
          ++ (List.replicate n (readFrame s ++ [HwEvent.delay 1])).flatten }) := by
  induction n with
  | zero => intro acc s _ _; simp [tareLoop]
  | succ n ih =>
    intro acc s h1 h2
    have hs := isInt_sample s 0
    unfold isInt at hs
    push_cast at h1 h2
    have e : toLong (acc + sample s 0) = acc + sample s 0 :=
      toLong_of_bounds (by omega) (by omega)
    simp only [tareLoop, read_ADC_eq, delay, e]
    rw [ih _ _ (by omega) (by omega)]
    simp only [sample_shift, Finset.sum_range_succ', readFrame, List.replicate_succ,
      List.flatten_cons, List.append_assoc]
    refine Prod.ext ?_ ?_
    · simp only; ring
    · simp only [State.mk.injEq, true_and, and_true]
      omega

theorem sum_range_bounds (f : Nat → Int) (h : ∀ k, isInt (f k)) (n : Nat) :
    -32768 * (n : Int) ≤ ∑ k ∈ Finset.range n, f k
      ∧ ∑ k ∈ Finset.range n, f k ≤ 32767 * (n : Int) := by
  induction n with
  | zero => simp
  | succ n ih =>
    have hk := h n
    unfold isInt at hk
    rw [Finset.sum_range_succ]
    push_cast
    omega

theorem isInt_mean64 (s : State F) :
    isInt ((∑ k ∈ Finset.range 64, sample s k).tdiv 64) := by
  have hb := sum_range_bounds (sample s) (isInt_sample s) 64
  have hi := isInt_tdiv (∑ k ∈ Finset.range 64, sample s k) 64 (by decide) hb.1 hb.2
  simpa using hi

theorem tare_eq (s : State F) :
    tare s = { s with
      m_offset := (∑ k ∈ Finset.range 64, sample s k).tdiv 64
      clock := s.clock + 128
      trace := s.trace
        ++ (List.replicate 64 (readFrame s ++ [HwEvent.delay 1])).flatten } := by
  have hi := isInt_mean64 s
  have e2 := toInt_of_isInt hi
  unfold isInt at hi
  have e1 := toLong_of_bounds (x := (∑ k ∈ Finset.range 64, sample s k).tdiv 64)
    (by omega) (by omega)
  unfold tare
  rw [tareLoop_eq 64 0 s (by decide) (by decide)]
  simp only [Int.zero_add, e1, e2]

/-- C7: for every stream of device bytes and every prior offset, `tare` makes
exactly 64 reads (128 transfers in 64 chip-select frames, each followed by
`delay(1)`), and sets `m_offset` to the sum of the 64 raw codes divided by 64
with truncation toward zero.  No partial sum leaves the `long int` range, the
new offset is an `int`, nothing else in the driver changes, and the offset
stored before has no influence on the new one. -/
theorem tare_offset (s : State F) :
    (tare s).m_offset = (∑ k ∈ Finset.range 64, sample s k).tdiv 64
      ∧ isInt (tare s).m_offset
      ∧ (∀ n, n ≤ 64 → -2147483648 ≤ ∑ k ∈ Finset.range n, sample s k
          ∧ ∑ k ∈ Finset.range n, sample s k ≤ 2147483647)
      ∧ (tare s).clock = s.clock + 2 * 64
      ∧ (tare s).trace = s.trace
          ++ (List.replicate 64 (readFrame s ++ [HwEvent.delay 1])).flatten
      ∧ tare s = { s with
          m_offset := (tare s).m_offset, clock := (tare s).clock, trace := (tare s).trace }
      ∧ ∀ o : Int, (tare (setOffset s o)).m_offset = (tare s).m_offset := by
  have hoff : (tare s).m_offset = (∑ k ∈ Finset.range 64, sample s k).tdiv 64 := by
    rw [tare_eq]
  refine ⟨hoff, ?_, ?_, ?_, ?_, ?_, ?_⟩
  · rw [hoff]
    exact isInt_mean64 s
  · intro n hn
    have hn' : (n : Int) ≤ 64 := by exact_mod_cast hn
    have := sum_range_bounds (sample s) (isInt_sample s) n
    omega
  · rw [tare_eq]
  · rw [tare_eq]
  · rw [tare_eq]
  · intro o
    rw [tare_eq, tare_eq]
    rfl

set_option maxRecDepth 100000 in
theorem tare_offset_witness :
    ((tare (setOffset (wired 0xFF 0x38) 999)).m_offset
        = (∑ k ∈ Finset.range 64, sample (setOffset (wired 0xFF 0x38) 999) k).tdiv 64
      ∧ isInt (tare (setOffset (wired 0xFF 0x38) 999)).m_offset)
    ∧ (tare (setOffset (wired 0xFF 0x38) 999)).m_offset = -200
    ∧ (tare (setOffset (wired 0xFF 0x38) 999)).clock = 130 :=
  ⟨⟨(tare_offset (setOffset (wired 0xFF 0x38) 999)).1,
    (tare_offset (setOffset (wired 0xFF 0x38) 999)).2.1⟩, by decide, by decide⟩

/-- C8: if every read delivers the same raw code `r`, then after `tare` the
next `getRawValue(true)` returns 0, whatever the offset was before. -/
theorem tare_then_getRawValue (s : State F) (r : Int) (h : ∀ k, sample s k = r) :
    (getRawValue (tare s) true).1 = 0 := by
  have hr : isInt r := h 0 ▸ isInt_sample s 0
  have hoff : (tare s).m_offset = r := by
    rw [tare_eq]
    simp only [h, Finset.sum_const, Finset.card_range, nsmul_eq_mul]
    exact Int.mul_tdiv_cancel_left r (by decide)
  have hs : sample (tare s) 0 = r := by
    rw [← h 64, tare_eq]
    simp only [sample]
  have ho : isInt (tare s).m_offset := hoff ▸ hr
  rw [getRawValue_true_eq (tare s) ho, hs, hoff]
  simp [clamp16]

theorem tare_then_getRawValue_witness :
    (∀ k, sample (setOffset (wired 0x12 0x34) 777) k = 0x1234)
      ∧ (getRawValue (tare (setOffset (wired 0x12 0x34) 777)) true).1 = 0 :=
  ⟨fun k => sample_wired 0x12 0x34 k,
   tare_then_getRawValue (setOffset (wired 0x12 0x34) 777) 0x1234
     (fun k => sample_wired 0x12 0x34 k)⟩

/-! ## Register codec: `setGain` -/

set_option maxRecDepth 100000 in
theorem gainField_table :
    ∀ d, d ≤ 0xF1 → d &&& 0xF1 = d → ∀ g, g ≤ 5 → 1 ≤ g →
      ((toByte (toByte d ||| (g <<< 1)) >>> 1) &&& 0x07 = g
        ∧ toByte (toByte d ||| (g <<< 1)) &&& 0xF1 = d) := by
  decide

theorem gainField_write (c g : Nat) (h1 : 1 ≤ g) (h5 : g ≤ 5) :
    (toByte (toByte (c &&& 0xF1) ||| (g <<< 1)) >>> 1) &&& 0x07 = g
      ∧ toByte (toByte (c &&& 0xF1) ||| (g <<< 1)) &&& 0xF1 = c &&& 0xF1 := by
  have hle : c &&& 0xF1 ≤ 0xF1 := Nat.and_le_right
  have hid : (c &&& 0xF1) &&& 0xF1 = c &&& 0xF1 := by
    rw [Nat.and_assoc, Nat.and_self]
  exact gainField_table _ hle hid g h5 h1

theorem setGain_valid (s : State F) (g : Nat) (h : 1 ≤ g ∧ g ≤ 5) :
    setGain s g = (toByte (0x01 <<< (g - 1)),
      { s with m_configHighByte :=
          toByte (toByte (s.m_configHighByte &&& 0xF1) ||| (g <<< 1)) }) := by
  have h' : 0 < g ∧ g ≤ 0x05 := ⟨h.1, h.2⟩
  simp only [setGain, if_pos h']

theorem setGain_fallback (s : State F) (g : Nat) (h : ¬ (1 ≤ g ∧ g ≤ 5)) :
    setGain s g = (2,
      { s with m_configHighByte :=
          toByte (toByte (s.m_configHighByte &&& 0xF1) ||| (0x02 <<< 1)) }) := by
  have h' : ¬ (0 < g ∧ g ≤ 0x05) := h
  simp only [setGain, if_neg h']

theorem gain_return_table : ∀ g, g ≤ 5 → 1 ≤ g →
    toByte (0x01 <<< (g - 1)) = 2 ^ (g - 1) := by
  decide

/-- C1 (as the code has it): `setGain` reads its argument as the PGA code.  For
every byte `g` and every prior state it returns `2 ^ (g - 1)` when `g` is one of
1..5 and 2 otherwise; the value returned equals `g` exactly for `g = 1` and
`g = 2`. -/
theorem setGain_return (s : State F) (g : Nat) :
    (setGain s g).1 = (if 1 ≤ g ∧ g ≤ 5 then 2 ^ (g - 1) else 2)
      ∧ ((setGain s g).1 = g ↔ (g = 1 ∨ g = 2)) := by
  by_cases h : 1 ≤ g ∧ g ≤ 5
  · rw [setGain_valid s g h, if_pos h]
    simp only [gain_return_table g h.2 h.1, true_and]
    obtain ⟨h1, h5⟩ := h
    interval_cases g <;> simp
  · rw [setGain_fallback s g h, if_neg h]
    simp only [true_and]
    constructor
    · intro h2
      right; exact h2.symm
    · rintro (h1 | h2)
      · exact absurd (by omega) h
      · exact absurd (by omega) h

/-- C1 fails as written: on an initialised device `setGain(4)` returns 8, and
`setGain(8)` and `setGain(16)` both return 2. -/
theorem setGain_return_counterexample :
    (setGain started 4).1 = 8 ∧ (setGain started 4).1 ≠ 4
      ∧ (setGain started 8).1 = 2 ∧ (setGain started 16).1 = 2 := by
  decide

/-- C2 (as the code has it): after `setGain(g)` the PGA field holds `g` itself
when `g` is one of 1..5 and 2 otherwise, whatever `m_configHighByte` held
before; for `g = 1` and `g = 2` this is `log2 g + 1`. -/
theorem setGain_pgaField (s : State F) (g : Nat) :
    pgaField (setGain s g).2 = (if 1 ≤ g ∧ g ≤ 5 then g else 2)
      ∧ pgaField (setGain s 1).2 = Nat.log 2 1 + 1
      ∧ pgaField (setGain s 2).2 = Nat.log 2 2 + 1 := by
  have key : ∀ g, pgaField (setGain s g).2 = (if 1 ≤ g ∧ g ≤ 5 then g else 2) := by
    intro g
    by_cases h : 1 ≤ g ∧ g ≤ 5
    · rw [setGain_valid s g h, if_pos h]
      exact (gainField_write s.m_configHighByte g h.1 h.2).1
    · rw [setGain_fallback s g h, if_neg h]
      exact (gainField_write s.m_configHighByte 2 (by decide) (by decide)).1
  have e1 : Nat.log 2 1 = 0 := Nat.log_pow (by decide) 0
  have e2 : Nat.log 2 2 = 1 := Nat.log_pow (by decide) 1
  refine ⟨key g, ?_, ?_⟩
  · rw [key 1, e1]
    decide
  · rw [key 2, e2]
    decide

/-- C2 fails as written: the claimed field values for gains 4, 8 and 16 are
`log2 g + 1`, that is 3, 4 and 5, but the code leaves 4, 2 and 2. -/
theorem setGain_pgaField_counterexample :
    (Nat.log 2 4 + 1 = 3 ∧ pgaField (setGain started 4).2 = 4)
      ∧ (Nat.log 2 8 + 1 = 4 ∧ pgaField (setGain started 8).2 = 2)
      ∧ (Nat.log 2 16 + 1 = 5 ∧ pgaField (setGain started 16).2 = 2) := by
  have e4 : Nat.log 2 4 = 2 := Nat.log_pow (by decide) 2
  have e8 : Nat.log 2 8 = 3 := Nat.log_pow (by decide) 3
  have e16 : Nat.log 2 16 = 4 := Nat.log_pow (by decide) 4
  rw [e4, e8, e16]
  decide

/-- C3 (as the code has it): for every byte `g` outside 1..5, that is `g = 0`
or `g > 5`, `setGain(g)` returns 2 and leaves the state `setGain(2)` leaves
from the same prior state, with PGA field 010. -/
theorem setGain_invalid (s : State F) (g : Nat) (h : g = 0 ∨ 5 < g) :
    (setGain s g).1 = 2 ∧ (setGain s g).2 = (setGain s 2).2
      ∧ pgaField (setGain s g).2 = 2 := by
  have hg : ¬ (1 ≤ g ∧ g ≤ 5) := by omega
  have h2 : (1 : Nat) ≤ 2 ∧ 2 ≤ 5 := by decide
  refine ⟨?_, ?_, ?_⟩
  · rw [setGain_fallback s g hg]
  · rw [setGain_fallback s g hg, setGain_valid s 2 h2]
  · rw [setGain_fallback s g hg]
    exact (gainField_write s.m_configHighByte 2 (by decide) (by decide)).1

theorem setGain_invalid_witness :
    ((setGain started 255).1 = 2 ∧ (setGain started 255).2 = (setGain started 2).2
      ∧ pgaField (setGain started 255).2 = 2)
    ∧ ((setGain started 0).1 = 2 ∧ (setGain started 0).2 = (setGain started 2).2
      ∧ pgaField (setGain started 0).2 = 2) :=
  ⟨setGain_invalid started 255 (Or.inr (by decide)),
   setGain_invalid started 0 (Or.inl rfl)⟩

/-- C3 fails as written: 3 and 5 are outside `{1,2,4,8,16}`, yet `setGain(3)`
returns 4 with PGA field 011 and `setGain(5)` returns 16 with PGA field 101. -/
theorem setGain_invalid_counterexample :
    (3 ∉ [1, 2, 4, 8, 16] ∧ (setGain started 3).1 = 4
        ∧ pgaField (setGain started 3).2 = 3 ∧ pgaField (setGain started 2).2 = 2)
      ∧ (5 ∉ [1, 2, 4, 8, 16] ∧ (setGain started 5).1 = 16
        ∧ pgaField (setGain started 5).2 = 5) := by
  decide

/-- C4: for every byte `g` and every prior state, `setGain(g)` leaves bits 7..4
and bit 0 of `m_configHighByte` as they were and changes no other variable:
`m_configLowByte`, `m_offset`, `m_multiplier`, the window size, the averaging
flag, the write index and the buffer are untouched, and nothing is sent on the
bus. -/
theorem setGain_frame (s : State F) (g : Nat) :
    nonGainBits (setGain s g).2 = nonGainBits s
      ∧ (setGain s g).2 = { s with m_configHighByte := (setGain s g).2.m_configHighByte }
      ∧ (setGain s g).2.m_configLowByte = s.m_configLowByte
      ∧ (setGain s g).2.m_offset = s.m_offset
      ∧ (setGain s g).2.m_multiplier = s.m_multiplier
      ∧ (setGain s g).2.m_noOfAverages = s.m_noOfAverages
      ∧ (setGain s g).2.m_bAverage = s.m_bAverage
      ∧ (setGain s g).2.m_averIndex = s.m_averIndex
      ∧ (setGain s g).2.m_averageStore = s.m_averageStore := by
  by_cases h : 1 ≤ g ∧ g ≤ 5
  · rw [setGain_valid s g h]
    exact ⟨(gainField_write s.m_configHighByte g h.1 h.2).2,
      rfl, rfl, rfl, rfl, rfl, rfl, rfl, rfl⟩
  · rw [setGain_fallback s g h]
    exact ⟨(gainField_write s.m_configHighByte 2 (by decide) (by decide)).2,
      rfl, rfl, rfl, rfl, rfl, rfl, rfl, rfl⟩

/-! ## Averaging filter -/

theorem getD_set (l : List Int) (i j : Nat) (v d : Int) (h : i < l.length) :
    (l.set i v).getD j d = if j = i then v else l.getD j d := by
  simp only [List.getD_eq_getElem?_getD, List.getElem?_set]
  by_cases hij : i = j
  · subst hij
    simp [h]
  · have hji : ¬ j = i := fun e => hij e.symm
    simp [hij, hji]

theorem isInt_getD (l : List Int) (h : ∀ x ∈ l, isInt x) (j : Nat) :
    isInt (l.getD j 0) := by
  by_cases hj : j < l.length
  · rw [List.getD_eq_getElem l 0 hj]
    exact h _ (List.getElem_mem hj)
  · rw [List.getD_eq_default l 0 (by omega)]
    decide

theorem sumStore_succ (store : List Int) (n : Nat) :
    sumStore store (n + 1) = toLong (sumStore store n + store.getD n 0) := by
  simp [sumStore, List.range_succ, List.foldl_append]

theorem sumStore_eq (store : List Int) (h : ∀ x ∈ store, isInt x) (n : Nat)
    (hn : n ≤ 32) : sumStore store n = ∑ j ∈ Finset.range n, store.getD j 0 := by
  induction n with
  | zero => simp [sumStore]
  | succ n ih =>
    have hb := sum_range_bounds (fun j => store.getD j 0) (isInt_getD store h) n
    have hx := isInt_getD store h n
    unfold isInt at hx
    have hn' : (n : Int) ≤ 31 := by omega
    rw [sumStore_succ, ih (by omega), Finset.sum_range_succ]
    exact toLong_of_bounds (by omega) (by omega)

theorem sum_getD_eq_take (l : List Int) : ∀ n : Nat,
    ∑ t ∈ Finset.range n, l.getD t 0 = (l.take n).sum := by
  induction l with
  | nil => intro n; simp
  | cons x xs ih =>
    intro n
    cases n with
    | zero => simp
    | succ n =>
      rw [Finset.sum_range_succ', List.take_succ_cons, List.sum_cons]
      simp only [List.getD_cons_succ, List.getD_cons_zero, ih n]
      ring

theorem sum_slotBehind (g : Nat → Int) (idx n : Nat) (h : idx < n) :
    ∑ t ∈ Finset.range n, g (slotBehind idx n t) = ∑ j ∈ Finset.range n, g j := by
  refine Finset.sum_bij' (fun t _ => slotBehind idx n t) (fun j _ => slotBehind idx n j)
    ?_ ?_ ?_ ?_ ?_
  · intro t ht
    simp only [Finset.mem_range, slotBehind] at ht ⊢
    split_ifs <;> omega
  · intro t ht
    simp only [Finset.mem_range, slotBehind] at ht ⊢
    split_ifs <;> omega
  · intro t ht
    simp only [Finset.mem_range, slotBehind] at ht ⊢
    split_ifs <;> omega
  · intro t ht
    simp only [Finset.mem_range, slotBehind] at ht ⊢
    split_ifs <;> omega
  · intro t _
    rfl

theorem nextIndex_lt (idx n : Nat) (hn : 1 ≤ n) : nextIndex idx n < n := by
  unfold nextIndex; split_ifs <;> omega

theorem calcAverages_eq (s : State F) (n : Nat) (v : Int) (hs : FilterOK n s)
    (hv : isInt v) :
    calcAverages s v = some
      ((∑ j ∈ Finset.range n,
          (s.m_averageStore.set (nextIndex s.m_averIndex n) v).getD j 0).tdiv n,
       { s with
         m_averIndex := nextIndex s.m_averIndex n
         m_averageStore := s.m_averageStore.set (nextIndex s.m_averIndex n) v }) := by
  obtain ⟨hN, h1, h32, hlen, hst⟩ := hs
  have hlt := nextIndex_lt s.m_averIndex n h1
  have hst' : ∀ x ∈ s.m_averageStore.set (nextIndex s.m_averIndex n) v, isInt x := by
    intro x hx
    rcases List.mem_or_eq_of_mem_set hx with h | h
    · exact hst x h
    · exact h ▸ hv
  have hsum := sumStore_eq _ hst' n h32
  have hb := sum_range_bounds _ (isInt_getD _ hst') n
  have hi := isInt_tdiv _ n h1 hb.1 hb.2
  have e2 := toInt_of_isInt hi
  have hi' := hi
  unfold isInt at hi'
  have e1 := toLong_of_bounds (x := (∑ j ∈ Finset.range n,
    (s.m_averageStore.set (nextIndex s.m_averIndex n) v).getD j 0).tdiv n)
    (by omega) (by omega)
  have hidx : (if toByte (s.m_averIndex + 1) ≥ s.m_noOfAverages
      then ({ s with m_averIndex := 0 } : State F)
      else { s with m_averIndex := toByte (s.m_averIndex + 1) })
      = { s with m_averIndex := nextIndex s.m_averIndex n } := by
    unfold nextIndex
    rw [hN]
    split_ifs <;> rfl
  unfold calcAverages
  simp only [hidx]
  rw [if_neg (by unfold averageLength; omega), if_neg (by unfold averageLength; omega),
    if_neg (by omega)]
  simp only [hN, hsum, e1, e2]

theorem calcAverages_step (s : State F) (n : Nat) (hist : List Int) (v : Int)
    (hs : FilterOK n s) (ht : Tracks n s hist) (hv : isInt v) :
    ∃ m s1, calcAverages s v = some (m, s1) ∧ FilterOK n s1 ∧ Tracks n s1 (v :: hist)
      ∧ (n ≤ hist.length + 1 → m = ((v :: hist).take n).sum.tdiv n) := by
  have hs' := hs
  obtain ⟨hN, h1, h32, hlen, hst⟩ := hs'
  have hlt := nextIndex_lt s.m_averIndex n h1
  have hset : nextIndex s.m_averIndex n < s.m_averageStore.length := by omega
  have htr : Tracks n ({ s with
      m_averIndex := nextIndex s.m_averIndex n
      m_averageStore := s.m_averageStore.set (nextIndex s.m_averIndex n) v } : State F)
      (v :: hist) := by
    refine ⟨fun _ => hlt, ?_⟩
    intro t ht1 ht2
    simp only []
    rw [getD_set _ _ _ _ _ hset]
    cases t with
    | zero =>
      have e : slotBehind (nextIndex s.m_averIndex n) n 0 = nextIndex s.m_averIndex n := by
        simp [slotBehind]
      rw [if_pos e, List.getD_cons_zero]
    | succ t =>
      have hne : hist ≠ [] := by
        intro e
        rw [e] at ht1
        simp at ht1
      have hidx := ht.1 hne
      have ht3 : t < hist.length := by simpa using ht1
      have e : slotBehind (nextIndex s.m_averIndex n) n (t + 1)
          = slotBehind s.m_averIndex n t := by
        unfold slotBehind nextIndex toByte
        split_ifs <;> omega
      have e' : ¬ slotBehind s.m_averIndex n t = nextIndex s.m_averIndex n := by
        unfold slotBehind nextIndex toByte
        split_ifs <;> omega
      rw [e, if_neg e', List.getD_cons_succ]
      exact ht.2 t ht3 (by omega)
  refine ⟨_, _, calcAverages_eq s n v hs hv, ?_, htr, ?_⟩
  · refine ⟨hN, h1, h32, ?_, ?_⟩
    · simp only [List.length_set]
      exact hlen
    · intro x hx
      rcases List.mem_or_eq_of_mem_set hx with h | h
      · exact hst x h
      · exact h ▸ hv
  · intro hfull
    rw [← sum_getD_eq_take (v :: hist) n,
      ← sum_slotBehind (fun j =>
        (s.m_averageStore.set (nextIndex s.m_averIndex n) v).getD j 0)
        (nextIndex s.m_averIndex n) n hlt]
    congr 1
    refine Finset.sum_congr rfl ?_
    intro t ht1
    rw [Finset.mem_range] at ht1
    exact htr.2 t (by simp only [List.length_cons]; omega) ht1

theorem pushAll_tracks (n : Nat) : ∀ (vs : List Int) (s : State F) (hist : List Int),
    FilterOK n s → Tracks n s hist → (∀ v ∈ vs, isInt v) →
    ∃ means s1, pushAll s vs = some (means, s1) ∧ means.length = vs.length
      ∧ ∀ k, k < vs.length → n ≤ hist.length + k + 1 →
          means.getD k 0 = (((vs.take (k + 1)).reverse ++ hist).take n).sum.tdiv n := by
  intro vs
  induction vs with
  | nil =>
    intro s hist _ _ _
    exact ⟨[], s, rfl, rfl, fun k hk => absurd hk (by simp)⟩
  | cons v vs ih =>
    intro s hist hs ht hvs
    obtain ⟨m, s1, hc, hs1, ht1, hm⟩ :=
      calcAverages_step s n hist v hs ht (hvs v (List.mem_cons_self v vs))
    obtain ⟨means, s2, hp, hl, hk⟩ :=
      ih s1 (v :: hist) hs1 ht1 (fun x hx => hvs x (List.mem_cons_of_mem v hx))
    refine ⟨m :: means, s2, ?_, ?_, ?_⟩
    · simp only [pushAll, hc, hp]
    · simp only [List.length_cons, hl]
    · intro k hk1 hk2
      cases k with
      | zero =>
        rw [List.getD_cons_zero]
        simpa using hm (by omega)
      | succ k =>
        rw [List.getD_cons_succ,
          hk k (by simpa using hk1) (by simp only [List.length_cons]; omega)]
        simp [List.take_succ_cons]

/-- C9: after `setNoOfAverages(n)` with `n` in 1..32, from any buffer contents
and any write index, every sequence of `int` values can be pushed through
`calcAverages` without a fault, and from the `n`-th push onward each push
returns the sum of the `n` most recently pushed values divided by `n` with
truncation toward zero. -/
theorem calcAverages_window (s : State F) (n : Nat) (vs : List Int)
    (hn1 : 1 ≤ n) (hn32 : n ≤ 32) (hlen : s.m_averageStore.length = 32)
    (hst : ∀ x ∈ s.m_averageStore, isInt x) (hvs : ∀ v ∈ vs, isInt v) :
    ∃ means s1, pushAll (setNoOfAverages s n) vs = some (means, s1)
      ∧ means.length = vs.length
      ∧ ∀ k, k < vs.length → n ≤ k + 1 →
          means.getD k 0 = (((vs.take (k + 1)).drop (k + 1 - n)).sum).tdiv n := by
  have hset : setNoOfAverages s n = { s with m_noOfAverages := n, m_bAverage := true } := by
    unfold setNoOfAverages
    rw [if_pos hn32, if_neg (by omega)]
  have hok : FilterOK n (setNoOfAverages s n) := by
    rw [hset]
    exact ⟨rfl, hn1, hn32, hlen, hst⟩
  have htr : Tracks n (setNoOfAverages s n) [] :=
    ⟨fun h => absurd rfl h, fun t ht => absurd ht (by simp)⟩
  obtain ⟨means, s1, hp, hl, hk⟩ := pushAll_tracks n vs (setNoOfAverages s n) [] hok htr hvs
  refine ⟨means, s1, hp, hl, ?_⟩
  intro k hk1 hk2
  rw [hk k hk1 (by simp only [List.length_nil]; omega)]
  have hlen' : (vs.take (k + 1)).length = k + 1 := by
    rw [List.length_take]; omega
  rw [List.append_nil, List.take_reverse, List.sum_reverse, hlen']

theorem calcAverages_window_witness :
    (∃ means s1,
      pushAll (setNoOfAverages fresh 4) ([10, 20, 30, 40, 50] : List Int) = some (means, s1)
      ∧ means.length = ([10, 20, 30, 40, 50] : List Int).length
      ∧ ∀ k, k < ([10, 20, 30, 40, 50] : List Int).length → 4 ≤ k + 1 →
          means.getD k 0
            = ((((([10, 20, 30, 40, 50] : List Int)).take (k + 1)).drop (k + 1 - 4)).sum).tdiv
                ((4 : Nat) : Int))
      ∧ (pushAll (setNoOfAverages fresh 4) ([10, 20, 30, 40, 50] : List Int)).map Prod.fst
          = some [2, 7, 15, 25, 35] :=
  ⟨calcAverages_window fresh 4 [10, 20, 30, 40, 50] (by decide) (by decide) (by decide)
      (by decide) (by decide),
   by decide⟩

/-- C10: with window size 1, from any write index and any buffer contents,
`calcAverages(v)` returns exactly `v` for every `int` value `v`. -/
theorem calcAverages_window_one (s : State F) (v : Int)
    (hn : s.m_noOfAverages = 1) (hlen : s.m_averageStore.length = 32) (hv : isInt v) :
    calcAverages s v
      = some (v, { s with m_averIndex := 0, m_averageStore := s.m_averageStore.set 0 v }) := by
  have hidx : (if toByte (s.m_averIndex + 1) ≥ s.m_noOfAverages
      then ({ s with m_averIndex := 0 } : State F)
      else { s with m_averIndex := toByte (s.m_averIndex + 1) })
      = { s with m_averIndex := 0 } := by
    rw [hn]
    split_ifs with h
    · rfl
    · have h0 : toByte (s.m_averIndex + 1) = 0 := by omega
      rw [h0]
  have hv' := hv
  unfold isInt at hv'
  have e1 : toLong v = v := toLong_of_bounds (by omega) (by omega)
  have e2 : toInt v = v := toInt_of_isInt hv
  have hget : (s.m_averageStore.set 0 v).getD 0 0 = v := by
    rw [getD_set _ _ _ _ _ (by omega), if_pos rfl]
  have hsum : sumStore (s.m_averageStore.set 0 v) 1 = v := by
    rw [sumStore_succ, hget]
    simp [sumStore, e1]
  unfold calcAverages
  simp only [hidx]
  rw [if_neg (by decide), if_neg (by rw [hn]; decide), if_neg (by rw [hn]; decide)]
  simp only [hn, hsum, Nat.cast_one, Int.tdiv_one, e1, e2]

theorem calcAverages_window_one_witness :
    calcAverages (setNoOfAverages (wired 1 2) 1) (-7)
      = some (-7, { setNoOfAverages (wired 1 2) 1 with
          m_averIndex := 0
          m_averageStore := (setNoOfAverages (wired 1 2) 1).m_averageStore.set 0 (-7) }) :=
  calcAverages_window_one (setNoOfAverages (wired 1 2) 1) (-7) (by decide) (by decide)
    (by decide)

/-! ## Start-up of the filter -/

theorem zeroing_getD (n : Nat) : ∀ (l : List Int) (j : Nat),
    ((List.range n).foldl (fun st ix => st.set ix 0) l).length = l.length
      ∧ ((List.range n).foldl (fun st ix => st.set ix 0) l).getD j 0
          = if j < n then 0 else l.getD j 0 := by
  induction n with
  | zero => intro l j; simp
  | succ n ih =>
    intro l j
    rw [List.range_succ, List.foldl_append]
    simp only [List.foldl_cons, List.foldl_nil, List.length_set]
    refine ⟨(ih l j).1, ?_⟩
    rw [List.getD_eq_getElem?_getD, List.getElem?_set]
    by_cases hj : n = j
    · subst hj
      rw [if_pos rfl, if_pos (Nat.lt_succ_self n)]
      split_ifs <;> rfl
    · rw [if_neg hj, ← List.getD_eq_getElem?_getD, (ih l j).2]
      split_ifs <;> first | rfl | omega

theorem getD_replicate_zero (m k : Nat) : (List.replicate m (0 : Int)).getD k 0 = 0 := by
  by_cases hk : k < m
  · rw [List.getD_eq_getElem _ 0 (by rw [List.length_replicate]; exact hk),
      List.getElem_replicate]
  · rw [List.getD_eq_default _ 0 (by rw [List.length_replicate]; omega)]

theorem loadCell_store (s0 : State F) (pin : Nat) (hlen : s0.m_averageStore.length = 32) :
    (loadCell s0 pin).m_averageStore = List.replicate 32 0 := by
  have hz := zeroing_getD averageLength s0.m_averageStore
  have hl : (loadCell s0 pin).m_averageStore.length = 32 := by
    simp only [loadCell, pinModeOutput, digitalWrite]
    rw [(hz 0).1, hlen]
  refine List.ext_getElem (by rw [hl, List.length_replicate]) ?_
  intro j h1 h2
  rw [← List.getD_eq_getElem _ 0 h1, List.getElem_replicate]
  simp only [loadCell, pinModeOutput, digitalWrite]
  rw [(hz j).2, if_pos (by unfold averageLength; omega)]

theorem sum_take_padded (l : List Int) (n : Nat) (h : l.length ≤ n) :
    ((l ++ List.replicate n 0).take n).sum = l.sum := by
  rw [List.take_append_eq_append_take, List.take_of_length_le h, List.sum_append,
    List.take_replicate, List.sum_replicate]
  simp

/-- C11: on a freshly constructed device (32 zeroed slots, write index 0) with
window size `n` in 2..32, the `k`-th push for `1 ≤ k < n` (position `j = k - 1`
of the list of pushed values) returns `(v1 + ... + vk) / n` truncated toward
zero: the slots not yet written count as zeros. -/
theorem calcAverages_startup (s0 : State F) (pin n : Nat) (vs : List Int)
    (hlen : s0.m_averageStore.length = 32) (hn2 : 2 ≤ n) (hn32 : n ≤ 32)
    (hvs : ∀ v ∈ vs, isInt v) :
    (loadCell s0 pin).m_averIndex = 0
      ∧ (loadCell s0 pin).m_averageStore = List.replicate 32 0
      ∧ ∃ means s1, pushAll (setNoOfAverages (loadCell s0 pin) n) vs = some (means, s1)
          ∧ means.length = vs.length
          ∧ ∀ j, j < vs.length → j + 1 < n →
              means.getD j 0 = ((vs.take (j + 1)).sum).tdiv n := by
  have hstore := loadCell_store s0 pin hlen
  have hidx : (loadCell s0 pin).m_averIndex = 0 := by
    simp only [loadCell]
  have hset : setNoOfAverages (loadCell s0 pin) n
      = { loadCell s0 pin with m_noOfAverages := n, m_bAverage := true } := by
    unfold setNoOfAverages
    rw [if_pos hn32, if_neg (by omega)]
  have e_n : (setNoOfAverages (loadCell s0 pin) n).m_noOfAverages = n := by rw [hset]
  have e_idx : (setNoOfAverages (loadCell s0 pin) n).m_averIndex = 0 := by rw [hset, hidx]
  have e_store : (setNoOfAverages (loadCell s0 pin) n).m_averageStore
      = List.replicate 32 0 := by rw [hset, hstore]
  generalize setNoOfAverages (loadCell s0 pin) n = s at e_n e_idx e_store
  have hok : FilterOK n s := by
    refine ⟨e_n, by omega, hn32, ?_, ?_⟩
    · rw [e_store, List.length_replicate]
    · intro x hx
      rw [e_store] at hx
      rw [List.eq_of_mem_replicate hx]
      decide
  have htr : Tracks n s (List.replicate n 0) := by
    refine ⟨fun _ => by rw [e_idx]; omega, ?_⟩
    intro t _ ht
    rw [e_idx, e_store, getD_replicate_zero, getD_replicate_zero]
  obtain ⟨means, s1, hp, hl, hk⟩ := pushAll_tracks n vs s (List.replicate n 0) hok htr hvs
  refine ⟨hidx, hstore, means, s1, hp, hl, ?_⟩
  intro j hj1 hj2
  rw [hk j hj1 (by simp only [List.length_replicate]; omega)]
  have hlen' : ((vs.take (j + 1)).reverse).length ≤ n := by
    rw [List.length_reverse, List.length_take]
    omega
  rw [sum_take_padded _ n hlen', List.sum_reverse]

theorem calcAverages_startup_witness :
    (fresh.m_averIndex = 0
      ∧ fresh.m_averageStore = List.replicate 32 0
      ∧ ∃ means s1,
          pushAll (setNoOfAverages fresh 4) ([10, 20, 30] : List Int) = some (means, s1)
          ∧ means.length = ([10, 20, 30] : List Int).length
          ∧ ∀ j, j < ([10, 20, 30] : List Int).length → j + 1 < 4 →
              means.getD j 0
                = (((([10, 20, 30] : List Int)).take (j + 1)).sum).tdiv ((4 : Nat) : Int))
      ∧ (pushAll (setNoOfAverages fresh 4) ([10, 20, 30] : List Int)).map Prod.fst
          = some [2, 7, 15] :=
  ⟨calcAverages_startup (powerOn 1 (fun _ => 0)) 10 4 [10, 20, 30] (by decide) (by decide)
      (by decide) (by decide),
   by decide⟩

/-! ## Window size -/

theorem setNoOfAverages_zero (s : State F) :
    setNoOfAverages s 0 = { s with m_noOfAverages := 0, m_bAverage := false } := by
  simp [setNoOfAverages]

theorem setNoOfAverages_window (s : State F) (n : Nat) (h1 : 1 ≤ n) (h32 : n ≤ 32) :
    setNoOfAverages s n = { s with m_noOfAverages := n, m_bAverage := true } := by
  unfold setNoOfAverages
  rw [if_pos h32, if_neg (by omega)]

theorem setNoOfAverages_large (s : State F) (n : Nat) (h : 32 < n) :
    setNoOfAverages s n = s := by
  unfold setNoOfAverages
  rw [if_neg (by omega), if_neg (by omega)]

/-- C12: for every `n > 32`, `setNoOfAverages(n)` changes nothing: the window
size, the averaging flag, the write index and the buffer are as before, and so
is every other variable. -/
theorem setNoOfAverages_rejected (s : State F) (n : Nat) (h : 32 < n) :
    setNoOfAverages s n = s
      ∧ (setNoOfAverages s n).m_noOfAverages = s.m_noOfAverages
      ∧ (setNoOfAverages s n).m_bAverage = s.m_bAverage
      ∧ (setNoOfAverages s n).m_averIndex = s.m_averIndex
      ∧ (setNoOfAverages s n).m_averageStore = s.m_averageStore := by
  rw [setNoOfAverages_large s n h]
  exact ⟨rfl, rfl, rfl, rfl, rfl⟩

theorem setNoOfAverages_rejected_witness :
    (setNoOfAverages (setNoOfAverages fresh 4) 33 = setNoOfAverages fresh 4
      ∧ (setNoOfAverages (setNoOfAverages fresh 4) 33).m_noOfAverages
          = (setNoOfAverages fresh 4).m_noOfAverages
      ∧ (setNoOfAverages (setNoOfAverages fresh 4) 33).m_bAverage
          = (setNoOfAverages fresh 4).m_bAverage
      ∧ (setNoOfAverages (setNoOfAverages fresh 4) 33).m_averIndex
          = (setNoOfAverages fresh 4).m_averIndex
      ∧ (setNoOfAverages (setNoOfAverages fresh 4) 33).m_averageStore
          = (setNoOfAverages fresh 4).m_averageStore)
      ∧ (setNoOfAverages (setNoOfAverages fresh 4) 255).m_noOfAverages = 4
      ∧ (setNoOfAverages (setNoOfAverages fresh 4) 255).m_bAverage = true :=
  ⟨setNoOfAverages_rejected (setNoOfAverages fresh 4) 33 (by decide), by decide, by decide⟩

/-- C18: for every `n`, `setNoOfAverages(n)` leaves the 32 slots of the buffer
and the write index as they were.  Nothing is reset on a resize: with the new
window `n` in 1..32, the next push writes one slot and returns the mean of
slots `0 .. n-1` of the buffer as it stood, that one slot replaced. -/
theorem setNoOfAverages_keeps_buffer (s : State F) (n : Nat) :
    (setNoOfAverages s n).m_averageStore = s.m_averageStore
      ∧ (setNoOfAverages s n).m_averIndex = s.m_averIndex
      ∧ (1 ≤ n → n ≤ 32 → s.m_averageStore.length = 32 →
          (∀ x ∈ s.m_averageStore, isInt x) → ∀ v, isInt v →
            calcAverages (setNoOfAverages s n) v = some
              ((∑ j ∈ Finset.range n,
                  (s.m_averageStore.set (nextIndex s.m_averIndex n) v).getD j 0).tdiv n,
               { setNoOfAverages s n with
                 m_averIndex := nextIndex s.m_averIndex n
                 m_averageStore := s.m_averageStore.set (nextIndex s.m_averIndex n) v })) := by
  have hfr : (setNoOfAverages s n).m_averageStore = s.m_averageStore
      ∧ (setNoOfAverages s n).m_averIndex = s.m_averIndex := by
    unfold setNoOfAverages
    split_ifs <;> exact ⟨rfl, rfl⟩
  refine ⟨hfr.1, hfr.2, ?_⟩
  intro h1 h32 hlen hst v hv
  have hok : FilterOK n (setNoOfAverages s n) := by
    rw [setNoOfAverages_window s n h1 h32]
    exact ⟨rfl, h1, h32, hlen, hst⟩
  rw [calcAverages_eq (setNoOfAverages s n) n v hok hv, hfr.1, hfr.2]

theorem setNoOfAverages_keeps_buffer_witness :
    ((setNoOfAverages (wired 1 2) 0).m_averageStore = (wired 1 2).m_averageStore
      ∧ (setNoOfAverages (wired 1 2) 0).m_averIndex = (wired 1 2).m_averIndex)
    ∧ (calcAverages (setNoOfAverages fresh 2) 50).map Prod.fst
        = some ((∑ j ∈ Finset.range 2,
            (fresh.m_averageStore.set (nextIndex fresh.m_averIndex 2) 50).getD j 0).tdiv
              ((2 : Nat) : Int))
    ∧ ((pushAll (setNoOfAverages fresh 4) [10, 20, 30, 40]).bind
        (fun a => calcAverages (setNoOfAverages a.2 2) 50)).map Prod.fst = some 45 :=
  ⟨⟨(setNoOfAverages_keeps_buffer (wired 1 2) 0).1,
    (setNoOfAverages_keeps_buffer (wired 1 2) 0).2.1⟩,
   congrArg (Option.map Prod.fst)
     ((setNoOfAverages_keeps_buffer fresh 2).2.2 (by decide) (by decide) (by decide)
       (by decide) 50 (by decide)),
   by decide⟩

/-! ## Facade -/

/-- C15: with the transport delivering the raw code `r`, `getRawValue(false)`
returns exactly `r` whatever offset is stored, and no variable of the driver
changes: the only effect is the one bus frame of the read. -/
theorem getRawValue_raw (s : State F) (r : Int) (hr : sample s 0 = r) :
    (getRawValue s false).1 = r
      ∧ (∀ o : Int, (getRawValue (setOffset s o) false).1 = r)
      ∧ (getRawValue s false).2
          = { s with clock := s.clock + 2, trace := s.trace ++ readFrame s }
      ∧ (getRawValue s false).2.m_offset = s.m_offset
      ∧ (getRawValue s false).2.m_configHighByte = s.m_configHighByte
      ∧ (getRawValue s false).2.m_configLowByte = s.m_configLowByte
      ∧ (getRawValue s false).2.m_multiplier = s.m_multiplier
      ∧ (getRawValue s false).2.m_noOfAverages = s.m_noOfAverages
      ∧ (getRawValue s false).2.m_bAverage = s.m_bAverage
      ∧ (getRawValue s false).2.m_averIndex = s.m_averIndex
      ∧ (getRawValue s false).2.m_averageStore = s.m_averageStore := by
  refine ⟨?_, ?_, ?_⟩
  · rw [getRawValue_false_eq, hr]
  · intro o
    rw [getRawValue_false_eq, ← hr]
    rfl
  · rw [getRawValue_false_eq]
    exact ⟨rfl, rfl, rfl, rfl, rfl, rfl, rfl, rfl, rfl⟩

theorem getRawValue_raw_witness :
    (getRawValue (setOffset (wired 0x80 0x00) 321) false).1 = -32768
      ∧ (getRawValue (setOffset (wired 0x80 0x00) 321) false).2.m_offset = 321 :=
  ⟨(getRawValue_raw (setOffset (wired 0x80 0x00) 321) (-32768) (by decide)).1, by decide⟩

theorem getFloatValue_off (ofInt : Int → F) (mul : F → F → F) (t : State F)
    (hb : t.m_bAverage = false) (ho : isInt t.m_offset) :
    getFloatValue ofInt mul t
      = some (mul (ofInt (clamp16 (sample t 0 - t.m_offset))) t.m_multiplier,
          { t with clock := t.clock + 2, trace := t.trace ++ readFrame t }) := by
  unfold getFloatValue
  rw [if_neg (by rw [hb]; decide)]
  simp only [getRawValue_true_eq t ho]

/-- C13: after `setNoOfAverages(0)`, from any prior state with an `int` offset,
`getFloatValue` makes exactly one read, returns
`float(clamp16(r - offset)) * multiplier` for the raw code `r` of that read,
which is `float(getRawValue(true)) * multiplier`, and leaves the buffer and
the write index alone.  The state it leaves is again one where
`setNoOfAverages(0)` has nothing to change, so the same holds for every later
call. -/
theorem getFloatValue_bypass (ofInt : Int → F) (mul : F → F → F) (s : State F)
    (ho : isInt s.m_offset) :
    getFloatValue ofInt mul (setNoOfAverages s 0)
        = some (mul (ofInt (clamp16 (sample s 0 - s.m_offset))) s.m_multiplier,
            { setNoOfAverages s 0 with
              clock := s.clock + 2, trace := s.trace ++ readFrame s })
      ∧ mul (ofInt (getRawValue (setNoOfAverages s 0) true).1)
            (setNoOfAverages s 0).m_multiplier
          = mul (ofInt (clamp16 (sample s 0 - s.m_offset))) s.m_multiplier
      ∧ ({ setNoOfAverages s 0 with
            clock := s.clock + 2, trace := s.trace ++ readFrame s } : State F).m_averageStore
          = s.m_averageStore
      ∧ ({ setNoOfAverages s 0 with
            clock := s.clock + 2, trace := s.trace ++ readFrame s } : State F).m_averIndex
          = s.m_averIndex
      ∧ setNoOfAverages ({ setNoOfAverages s 0 with
            clock := s.clock + 2, trace := s.trace ++ readFrame s } : State F) 0
          = { setNoOfAverages s 0 with
              clock := s.clock + 2, trace := s.trace ++ readFrame s } := by
  rw [setNoOfAverages_zero]
  have hb : ({ s with m_noOfAverages := 0, m_bAverage := false } : State F).m_bAverage
      = false := rfl
  have hf := getFloatValue_off ofInt mul
    ({ s with m_noOfAverages := 0, m_bAverage := false } : State F) hb ho
  have hg := getRawValue_true_eq
    ({ s with m_noOfAverages := 0, m_bAverage := false } : State F) ho
  refine ⟨hf, ?_, rfl, rfl, ?_⟩
  · rw [hg]
    simp only [sample]
  · rw [setNoOfAverages_zero]

theorem getFloatValue_bypass_witness :
    (getFloatValue (fun x => x) (fun a b => a * b)
        (setNoOfAverages (setOffset (setFloatMultiplier
          (setNoOfAverages (wired 0x7F 0xFF) 4) 3) (-5)) 0)).map Prod.fst
      = some (clamp16 (sample (setOffset (setFloatMultiplier
          (setNoOfAverages (wired 0x7F 0xFF) 4) 3) (-5)) 0 - (-5)) * 3)
    ∧ (getFloatValue (fun x => x) (fun a b => a * b)
        (setNoOfAverages (setOffset (setFloatMultiplier
          (setNoOfAverages (wired 0x7F 0xFF) 4) 3) (-5)) 0)).map Prod.fst
      = some (32767 * 3) :=
  ⟨congrArg (Option.map Prod.fst)
     (getFloatValue_bypass (fun x => x) (fun a b => a * b)
       (setOffset (setFloatMultiplier (setNoOfAverages (wired 0x7F 0xFF) 4) 3) (-5))
       (by decide)).1,
   by decide⟩

/-- C14: with averaging enabled and a window `n` in 1..32, `getFloatValue`
makes exactly one read, pushes `clamp16(r - offset)` for the raw code `r` of
that read through `calcAverages` exactly once, and returns
`float(m) * multiplier` for the mean `m` that push returns. -/
theorem getFloatValue_averaged (ofInt : Int → F) (mul : F → F → F) (s : State F)
    (n : Nat) (hb : s.m_bAverage = true) (hs : FilterOK n s) (ho : isInt s.m_offset) :
    ∃ m s1,
      calcAverages { s with clock := s.clock + 2, trace := s.trace ++ readFrame s }
          (clamp16 (sample s 0 - s.m_offset)) = some (m, s1)
        ∧ getFloatValue ofInt mul s = some (mul (ofInt m) s.m_multiplier, s1)
        ∧ s1.clock = s.clock + 2
        ∧ s1.trace = s.trace ++ readFrame s
        ∧ s1.m_averIndex = nextIndex s.m_averIndex n
        ∧ s1.m_averageStore
            = s.m_averageStore.set (nextIndex s.m_averIndex n)
                (clamp16 (sample s 0 - s.m_offset)) := by
  have hg := getRawValue_true_eq s ho
  have hok : FilterOK n
      ({ s with clock := s.clock + 2, trace := s.trace ++ readFrame s } : State F) := hs
  have hc := calcAverages_eq _ n (clamp16 (sample s 0 - s.m_offset)) hok (isInt_clamp16 _)
  refine ⟨_, _, hc, ?_, rfl, rfl, rfl, rfl⟩
  unfold getFloatValue
  rw [if_pos hb]
  simp only [hg, hc]

theorem getFloatValue_averaged_witness :
    (∃ m s1,
      calcAverages { setNoOfAverages (wired 0 100) 4 with
          clock := (setNoOfAverages (wired 0 100) 4).clock + 2
          trace := (setNoOfAverages (wired 0 100) 4).trace
            ++ readFrame (setNoOfAverages (wired 0 100) 4) }
          (clamp16 (sample (setNoOfAverages (wired 0 100) 4) 0
            - (setNoOfAverages (wired 0 100) 4).m_offset)) = some (m, s1)
        ∧ getFloatValue (fun x => x) (fun a b => a * b) (setNoOfAverages (wired 0 100) 4)
            = some (m * (setNoOfAverages (wired 0 100) 4).m_multiplier, s1)
        ∧ s1.clock = (setNoOfAverages (wired 0 100) 4).clock + 2
        ∧ s1.trace = (setNoOfAverages (wired 0 100) 4).trace
            ++ readFrame (setNoOfAverages (wired 0 100) 4)
        ∧ s1.m_averIndex = nextIndex (setNoOfAverages (wired 0 100) 4).m_averIndex 4
        ∧ s1.m_averageStore
            = (setNoOfAverages (wired 0 100) 4).m_averageStore.set
                (nextIndex (setNoOfAverages (wired 0 100) 4).m_averIndex 4)
                (clamp16 (sample (setNoOfAverages (wired 0 100) 4) 0
                  - (setNoOfAverages (wired 0 100) 4).m_offset)))
    ∧ (getFloatValue (fun x => x) (fun a b => a * b)
        (setNoOfAverages (wired 0 100) 4)).map Prod.fst = some 25 :=
  ⟨getFloatValue_averaged (fun x => x) (fun a b => a * b) (setNoOfAverages (wired 0 100) 4) 4
      (by decide) ⟨by decide, by decide, by decide, by decide, by decide⟩ (by decide),
   by decide⟩

/-! ## Initialisation -/

theorem init_ADC_eq (s : State F) :
    init_ADC s = { s with
      m_configHighByte := 0x34
      m_configLowByte := 0xE2
      m_offset := 0
      clock := s.clock + 2
      trace := s.trace ++
        [HwEvent.spiBegin, HwEvent.spiSetClockDivider64, HwEvent.spiSetDataMode1,
         HwEvent.digitalWrite s.m_CS_pin false, HwEvent.spiTransfer 0x34,
         HwEvent.spiTransfer 0xE2, HwEvent.digitalWrite s.m_CS_pin true] } := by
  simp [init_ADC, spiSetup, digitalWrite, spiTransfer]

/-- C16: after `init_ADC`, from any prior state, `m_configHighByte` is 0x34:
bit 7 is 0, the MUX bits 6..4 are 011, the PGA bits 3..1 are 010 (the field
`setGain(2)` writes) and the mode bit 0 is 0; `m_configLowByte` is 0xE2: the
data-rate bits 7..5 are 111 and the update-marker bits 2..1 are 01; `m_offset`
is 0; and the bytes shifted out to the device inside one chip-select frame are
`m_configHighByte` then `m_configLowByte`. -/
theorem init_ADC_config (s : State F) :
    (init_ADC s).m_configHighByte = 0x34
      ∧ ((init_ADC s).m_configHighByte >>> 7) &&& 0x01 = 0
      ∧ ((init_ADC s).m_configHighByte >>> 4) &&& 0x07 = 0x03
      ∧ pgaField (init_ADC s) = 0x02
      ∧ (∀ t : State F, pgaField (init_ADC s) = pgaField (setGain t 2).2)
      ∧ (init_ADC s).m_configHighByte &&& 0x01 = 0
      ∧ (init_ADC s).m_configLowByte = 0xE2
      ∧ ((init_ADC s).m_configLowByte >>> 5) &&& 0x07 = 0x07
      ∧ ((init_ADC s).m_configLowByte >>> 1) &&& 0x03 = 0x01
      ∧ (init_ADC s).m_offset = 0
      ∧ (init_ADC s).trace = s.trace ++
          [HwEvent.spiBegin, HwEvent.spiSetClockDivider64, HwEvent.spiSetDataMode1,
           HwEvent.digitalWrite s.m_CS_pin false,
           HwEvent.spiTransfer (init_ADC s).m_configHighByte,
           HwEvent.spiTransfer (init_ADC s).m_configLowByte,
           HwEvent.digitalWrite s.m_CS_pin true] := by
  have hp : ∀ t : State F, pgaField (setGain t 2).2 = 2 := by
    intro t
    rw [setGain_valid t 2 (by decide)]
    exact (gainField_write t.m_configHighByte 2 (by decide) (by decide)).1
  have hH : (init_ADC s).m_configHighByte = 0x34 := by rw [init_ADC_eq]
  have hL : (init_ADC s).m_configLowByte = 0xE2 := by rw [init_ADC_eq]
  have hO : (init_ADC s).m_offset = 0 := by rw [init_ADC_eq]
  have hT : (init_ADC s).trace = s.trace ++
      [HwEvent.spiBegin, HwEvent.spiSetClockDivider64, HwEvent.spiSetDataMode1,
       HwEvent.digitalWrite s.m_CS_pin false, HwEvent.spiTransfer 0x34,
       HwEvent.spiTransfer 0xE2, HwEvent.digitalWrite s.m_CS_pin true] := by
    rw [init_ADC_eq]
  have hP : pgaField (init_ADC s) = 0x02 := by
    unfold pgaField
    rw [hH]
    decide
  refine ⟨hH, ?_, ?_, hP, ?_, ?_, hL, ?_, ?_, hO, ?_⟩
  · rw [hH]; decide
  · rw [hH]; decide
  · intro t
    rw [hP, hp t]
  · rw [hH]; decide
  · rw [hL]; decide
  · rw [hL]; decide
  · rw [hT, hH, hL]

/-! ## Register codec: the gain programmed -/

/-- C20: for every byte `g` and every prior `m_configHighByte`, after
`setGain(g)` the PGA field `p` is one of 1..5 and the value returned is
`2 ^ (p - 1)`: the return value is one of 1, 2, 4, 8, 16 and is the gain that
the configuration byte now selects. -/
theorem setGain_programmed (s : State F) (g : Nat) :
    1 ≤ pgaField (setGain s g).2
      ∧ pgaField (setGain s g).2 ≤ 5
      ∧ (setGain s g).1 = 2 ^ (pgaField (setGain s g).2 - 1)
      ∧ (setGain s g).1 ∈ [1, 2, 4, 8, 16] := by
  by_cases h : 1 ≤ g ∧ g ≤ 5
  · have hp : pgaField (setGain s g).2 = g := by
      rw [setGain_valid s g h]
      exact (gainField_write s.m_configHighByte g h.1 h.2).1
    have hr : (setGain s g).1 = 2 ^ (g - 1) := by
      rw [setGain_valid s g h]
      exact gain_return_table g h.2 h.1
    rw [hp, hr]
    obtain ⟨h1, h5⟩ := h
    refine ⟨h1, h5, rfl, ?_⟩
    interval_cases g <;> decide
  · have hp : pgaField (setGain s g).2 = 2 := by
      rw [setGain_fallback s g h]
      exact (gainField_write s.m_configHighByte 2 (by decide) (by decide)).1
    have hr : (setGain s g).1 = 2 := by
      rw [setGain_fallback s g h]
    rw [hp, hr]
    decide

/-! ## Invariants over sequences of calls -/

theorem calcAverages_defined (s : State F) (v : Int)
    (h1 : 1 ≤ s.m_noOfAverages) (h32 : s.m_noOfAverages ≤ 32) :
    ∃ m, calcAverages s v = some (m,
      { s with
        m_averIndex := nextIndex s.m_averIndex s.m_noOfAverages
        m_averageStore :=
          s.m_averageStore.set (nextIndex s.m_averIndex s.m_noOfAverages) v }) := by
  have hlt := nextIndex_lt s.m_averIndex s.m_noOfAverages h1
  have hidx : (if toByte (s.m_averIndex + 1) ≥ s.m_noOfAverages
      then ({ s with m_averIndex := 0 } : State F)
      else { s with m_averIndex := toByte (s.m_averIndex + 1) })
      = { s with m_averIndex := nextIndex s.m_averIndex s.m_noOfAverages } := by
    unfold nextIndex
    split_ifs <;> rfl
  unfold calcAverages
  simp only [hidx]
  rw [if_neg (by unfold averageLength; omega), if_neg (by unfold averageLength; omega),
    if_neg (by omega)]
  exact ⟨_, rfl⟩

theorem calcAverages_shape (s : State F) (v : Int) :
    calcAverages s v = none ∨ ∃ m, calcAverages s v = some (m,
      { s with
        m_averIndex := nextIndex s.m_averIndex s.m_noOfAverages
        m_averageStore :=
          s.m_averageStore.set (nextIndex s.m_averIndex s.m_noOfAverages) v }) := by
  have hidx : (if toByte (s.m_averIndex + 1) ≥ s.m_noOfAverages
      then ({ s with m_averIndex := 0 } : State F)
      else { s with m_averIndex := toByte (s.m_averIndex + 1) })
      = { s with m_averIndex := nextIndex s.m_averIndex s.m_noOfAverages } := by
    unfold nextIndex
    split_ifs <;> rfl
  unfold calcAverages
  simp only [hidx]
  split_ifs
  · exact Or.inl rfl
  · exact Or.inl rfl
  · exact Or.inl rfl
  · exact Or.inr ⟨_, rfl⟩

theorem calcAverages_frame (s : State F) (v : Int) (a : Int × State F)
    (h : calcAverages s v = some a) :
    a.2 = { s with m_averIndex := a.2.m_averIndex, m_averageStore := a.2.m_averageStore } := by
  rcases calcAverages_shape s v with hn | ⟨m, hm⟩
  · rw [hn] at h
    exact absurd h (by simp)
  · rw [hm] at h
    simp only [Option.some.injEq] at h
    rw [← h]

theorem getFloatValue_frame (ofInt : Int → F) (mul : F → F → F) (s : State F)
    (r : F × State F) (h : getFloatValue ofInt mul s = some r) :
    r.2 = { s with
      clock := s.clock + 2
      trace := s.trace ++ readFrame s
      m_averIndex := r.2.m_averIndex
      m_averageStore := r.2.m_averageStore } := by
  unfold getFloatValue at h
  split_ifs at h with hb
  · simp only at h
    cases hc : calcAverages (getRawValue s true).2 (getRawValue s true).1 with
    | none => rw [hc] at h; exact absurd h (by simp)
    | some a =>
      rw [hc] at h
      simp only [Option.some.injEq] at h
      have hf := calcAverages_frame _ _ _ hc
      rw [getRawValue_snd] at hf
      rw [← h]
      simp only
      rw [hf]
  · simp only [Option.some.injEq] at h
    rw [← h]
    simp only
    rw [getRawValue_snd]

theorem call_config (ofInt : Int → F) (mul : F → F → F) (s s1 : State F) (c : Call F)
    (hL : s.m_configLowByte = 0xE2) (hH : nonGainBits s = 0x30)
    (h : call ofInt mul s c = some s1) :
    s1.m_configLowByte = 0xE2 ∧ nonGainBits s1 = 0x30 := by
  cases c with
  | init_ADC =>
    simp only [call, Option.some.injEq] at h
    rw [← h, init_ADC_eq]
    refine ⟨rfl, ?_⟩
    show (0x34 : Nat) &&& 0xF1 = 0x30
    decide
  | getRawValue b =>
    simp only [call, Option.some.injEq] at h
    rw [← h, getRawValue_snd]
    exact ⟨hL, hH⟩
  | tare =>
    simp only [call, Option.some.injEq] at h
    have e1 : (tare s).m_configLowByte = s.m_configLowByte := by rw [tare_eq]
    have e2 : (tare s).m_configHighByte = s.m_configHighByte := by rw [tare_eq]
    unfold nonGainBits at hH ⊢
    rw [← h, e1, e2]
    exact ⟨hL, hH⟩
  | setFloatMultiplier m =>
    simp only [call, Option.some.injEq] at h
    rw [← h]
    exact ⟨hL, hH⟩
  | getFloatValue =>
    simp only [call, Option.map_eq_some'] at h
    obtain ⟨r, hr, hs⟩ := h
    have hf := getFloatValue_frame ofInt mul s r hr
    rw [← hs, hf]
    exact ⟨hL, hH⟩
  | setGain g =>
    simp only [call, Option.some.injEq] at h
    rw [← h]
    by_cases hg : 1 ≤ g ∧ g ≤ 5
    · rw [setGain_valid s g hg]
      refine ⟨hL, ?_⟩
      have := (gainField_write s.m_configHighByte g hg.1 hg.2).2
      unfold nonGainBits at hH ⊢
      simp only
      rw [this, hH]
    · rw [setGain_fallback s g hg]
      refine ⟨hL, ?_⟩
      have := (gainField_write s.m_configHighByte 2 (by decide) (by decide)).2
      unfold nonGainBits at hH ⊢
      simp only
      rw [this, hH]
  | setOffset o =>
    simp only [call, Option.some.injEq] at h
    rw [← h]
    exact ⟨hL, hH⟩
  | setNoOfAverages n =>
    simp only [call, Option.some.injEq] at h
    rw [← h]
    unfold setNoOfAverages
    split_ifs <;> exact ⟨hL, hH⟩

theorem run_config (ofInt : Int → F) (mul : F → F → F) (cs : List (Call F)) :
    ∀ s s1 : State F, s.m_configLowByte = 0xE2 → nonGainBits s = 0x30 →
      run ofInt mul s cs = some s1 →
      s1.m_configLowByte = 0xE2 ∧ nonGainBits s1 = 0x30 := by
  induction cs with
  | nil =>
    intro s s1 hL hH h
    simp only [run, Option.some.injEq] at h
    rw [← h]
    exact ⟨hL, hH⟩
  | cons c cs ih =>
    intro s s1 hL hH h
    cases hc : call ofInt mul s c with
    | none =>
      simp only [run, hc] at h
      exact absurd h (by simp)
    | some s2 =>
      simp only [run, hc] at h
      obtain ⟨hL2, hH2⟩ := call_config ofInt mul s s2 c hL hH hc
      exact ih s2 s1 hL2 hH2 h

/-- C17: in every state reached from `init_ADC` (run on any prior state) by any
sequence of calls of the public member functions, with any arguments and any
device bytes, `m_configLowByte` is still 0xE2, so its update-marker bits 2..1
are 01, and the bits of `m_configHighByte` outside the PGA field are as
initialised: `m_configHighByte & 0xF1 = 0x30`. -/
theorem config_invariant (ofInt : Int → F) (mul : F → F → F) (s0 s : State F)
    (cs : List (Call F)) (h : run ofInt mul (init_ADC s0) cs = some s) :
    s.m_configLowByte = 0xE2
      ∧ (s.m_configLowByte >>> 1) &&& 0x03 = 0x01
      ∧ s.m_configHighByte &&& 0xF1 = 0x30 := by
  have h0L : (init_ADC s0).m_configLowByte = 0xE2 := by rw [init_ADC_eq]
  have h0H : nonGainBits (init_ADC s0) = 0x30 := by
    rw [init_ADC_eq]
    show (0x34 : Nat) &&& 0xF1 = 0x30
    decide
  obtain ⟨hL, hH⟩ := run_config ofInt mul cs (init_ADC s0) s h0L h0H h
  refine ⟨hL, ?_, hH⟩
  rw [hL]
  decide

set_option maxRecDepth 100000 in
theorem config_invariant_witness :
    ∃ s, run (fun x => x) (fun a b => a * b) (init_ADC (loadCell (powerOn 1 (fun k => k)) 10))
          session = some s
      ∧ (s.m_configLowByte = 0xE2
        ∧ (s.m_configLowByte >>> 1) &&& 0x03 = 0x01
        ∧ s.m_configHighByte &&& 0xF1 = 0x30)
      ∧ s.m_configHighByte = 0x36 :=
  ⟨(run (fun x => x) (fun a b => a * b) (init_ADC (loadCell (powerOn 1 (fun k => k)) 10))
      session).get (by decide),
   (Option.some_get _).symm,
   config_invariant (fun x => x) (fun a b => a * b) (loadCell (powerOn 1 (fun k => k)) 10) _
     session (Option.some_get _).symm,
   by decide⟩

theorem calcAverages_keeps_ok (s : State F) (v : Int) (hb : s.m_bAverage = true)
    (h : AveragingOK s) :
    ∃ m s1, calcAverages s v = some (m, s1) ∧ s1.m_averIndex < s1.m_noOfAverages
      ∧ AveragingOK s1 ∧ s1.m_bAverage = s.m_bAverage := by
  obtain ⟨hiff, h32, _, hlen⟩ := h
  have h1 := (hiff.1 hb).1
  have hlt := nextIndex_lt s.m_averIndex s.m_noOfAverages h1
  obtain ⟨m, hm⟩ := calcAverages_defined s v h1 h32
  refine ⟨m, _, hm, hlt, ⟨hiff, h32, ?_, ?_⟩, rfl⟩
  · show nextIndex s.m_averIndex s.m_noOfAverages < 32
    omega
  · show (s.m_averageStore.set (nextIndex s.m_averIndex s.m_noOfAverages) v).length = 32
    rw [List.length_set]
    exact hlen

theorem getFloatValue_defined (ofInt : Int → F) (mul : F → F → F) (s : State F)
    (h : AveragingOK s) :
    ∃ x s1, getFloatValue ofInt mul s = some (x, s1) ∧ AveragingOK s1
      ∧ (s.m_bAverage = true → s1.m_averIndex < s1.m_noOfAverages) := by
  have hsnd := getRawValue_snd s true
  by_cases hb : s.m_bAverage = true
  · have hok : AveragingOK (getRawValue s true).2 := by
      rw [hsnd]
      exact h
    have hb2 : (getRawValue s true).2.m_bAverage = true := by
      rw [hsnd]
      exact hb
    obtain ⟨m, s1, hc, hlt, hok1, _⟩ :=
      calcAverages_keeps_ok (getRawValue s true).2 (getRawValue s true).1 hb2 hok
    refine ⟨mul (ofInt m) s1.m_multiplier, s1, ?_, hok1, fun _ => hlt⟩
    unfold getFloatValue
    rw [if_pos hb]
    simp only [hc]
  · refine ⟨mul (ofInt (getRawValue s true).1) (getRawValue s true).2.m_multiplier,
      (getRawValue s true).2, ?_, ?_, fun hb1 => absurd hb1 hb⟩
    · unfold getFloatValue
      rw [if_neg hb]
    · rw [hsnd]
      exact h

theorem call_averaging (ofInt : Int → F) (mul : F → F → F) (s : State F) (c : Call F)
    (h : AveragingOK s) :
    ∃ s1, call ofInt mul s c = some s1 ∧ AveragingOK s1 := by
  cases c with
  | init_ADC =>
    refine ⟨init_ADC s, rfl, ?_⟩
    rw [init_ADC_eq]
    exact h
  | getRawValue b =>
    refine ⟨(getRawValue s b).2, rfl, ?_⟩
    rw [getRawValue_snd]
    exact h
  | tare =>
    refine ⟨tare s, rfl, ?_⟩
    have e1 : (tare s).m_bAverage = s.m_bAverage := by rw [tare_eq]
    have e2 : (tare s).m_noOfAverages = s.m_noOfAverages := by rw [tare_eq]
    have e3 : (tare s).m_averIndex = s.m_averIndex := by rw [tare_eq]
    have e4 : (tare s).m_averageStore = s.m_averageStore := by rw [tare_eq]
    unfold AveragingOK at h ⊢
    rw [e1, e2, e3, e4]
    exact h
  | setFloatMultiplier m => exact ⟨setFloatMultiplier s m, rfl, h⟩
  | getFloatValue =>
    obtain ⟨x, s1, hg, hok, _⟩ := getFloatValue_defined ofInt mul s h
    refine ⟨s1, ?_, hok⟩
    simp only [call, hg, Option.map_some']
  | setGain g =>
    refine ⟨(setGain s g).2, rfl, ?_⟩
    by_cases hg : 1 ≤ g ∧ g ≤ 5
    · rw [setGain_valid s g hg]
      exact h
    · rw [setGain_fallback s g hg]
      exact h
  | setOffset o => exact ⟨setOffset s o, rfl, h⟩
  | setNoOfAverages n =>
    refine ⟨setNoOfAverages s n, rfl, ?_⟩
    obtain ⟨hiff, h32, hidx, hlen⟩ := h
    by_cases h0 : n = 0
    · subst h0
      rw [setNoOfAverages_zero]
      refine ⟨?_, ?_, hidx, hlen⟩
      · show (false = true ↔ (1 ≤ 0 ∧ 0 ≤ 32))
        simp
      · show 0 ≤ 32
        omega
    · by_cases hn : n ≤ 32
      · rw [setNoOfAverages_window s n (by omega) hn]
        refine ⟨?_, hn, hidx, hlen⟩
        show (true = true ↔ (1 ≤ n ∧ n ≤ 32))
        simp only [true_iff]
        omega
      · rw [setNoOfAverages_large s n (by omega)]
        exact ⟨hiff, h32, hidx, hlen⟩

theorem run_averaging (ofInt : Int → F) (mul : F → F → F) (cs : List (Call F)) :
    ∀ s : State F, AveragingOK s →
      ∃ s1, run ofInt mul s cs = some s1 ∧ AveragingOK s1 := by
  induction cs with
  | nil => intro s h; exact ⟨s, rfl, h⟩
  | cons c cs ih =>
    intro s h
    obtain ⟨s2, hc, h2⟩ := call_averaging ofInt mul s c h
    obtain ⟨s1, hr, h1⟩ := ih s2 h2
    refine ⟨s1, ?_, h1⟩
    simp only [run, hc, hr]

theorem loadCell_averaging (s0 : State F) (pin : Nat)
    (hlen : s0.m_averageStore.length = 32) : AveragingOK (loadCell s0 pin) := by
  have hst := loadCell_store s0 pin hlen
  refine ⟨?_, ?_, ?_, ?_⟩
  · show (false = true ↔ (1 ≤ 0 ∧ 0 ≤ 32))
    simp
  · show 0 ≤ 32
    omega
  · show 0 < 32
    omega
  · rw [hst, List.length_replicate]

/-- C19: every sequence of calls of the public member functions on a
constructed device runs without a fault, and in the state it reaches the
averaging flag is set exactly when the window is in 1..32, the window is at
most 32 and the write index is below 32 inside a buffer of 32 slots.  From such
a state `getFloatValue` is defined, and when averaging is on every push is
defined (no division by zero, no access outside the buffer) and leaves the
write index below the window size. -/
theorem averaging_invariant (ofInt : Int → F) (mul : F → F → F) (s0 : State F)
    (pin : Nat) (cs : List (Call F)) (hlen : s0.m_averageStore.length = 32) :
    ∃ s, run ofInt mul (loadCell s0 pin) cs = some s
      ∧ (s.m_bAverage = true ↔ (1 ≤ s.m_noOfAverages ∧ s.m_noOfAverages ≤ 32))
      ∧ s.m_noOfAverages ≤ 32
      ∧ s.m_averIndex < 32
      ∧ s.m_averageStore.length = 32
      ∧ (∃ x s1, getFloatValue ofInt mul s = some (x, s1)
          ∧ (s.m_bAverage = true → s1.m_averIndex < s1.m_noOfAverages))
      ∧ (s.m_bAverage = true → ∀ v, ∃ m s1, calcAverages s v = some (m, s1)
          ∧ s1.m_averIndex < s1.m_noOfAverages ∧ s1.m_averIndex < 32
          ∧ s1.m_averageStore.length = 32) := by
  obtain ⟨s, hr, hok⟩ := run_averaging ofInt mul cs (loadCell s0 pin)
    (loadCell_averaging s0 pin hlen)
  obtain ⟨x, s1, hg, _, hlt⟩ := getFloatValue_defined ofInt mul s hok
  refine ⟨s, hr, hok.1, hok.2.1, hok.2.2.1, hok.2.2.2, ⟨x, s1, hg, hlt⟩, ?_⟩
  intro hb v
  obtain ⟨m, s2, hc, hlt2, hok2, _⟩ := calcAverages_keeps_ok s v hb hok
  exact ⟨m, s2, hc, hlt2, hok2.2.2.1, hok2.2.2.2⟩

set_option maxRecDepth 100000 in
theorem averaging_invariant_witness :
    (∃ s, run (fun x => x) (fun a b => a * b) (loadCell (powerOn 1 (fun k => k)) 10) session
          = some s
      ∧ (s.m_bAverage = true ↔ (1 ≤ s.m_noOfAverages ∧ s.m_noOfAverages ≤ 32))
      ∧ s.m_noOfAverages ≤ 32
      ∧ s.m_averIndex < 32
      ∧ s.m_averageStore.length = 32
      ∧ (∃ x s1, getFloatValue (fun x => x) (fun a b => a * b) s = some (x, s1)
          ∧ (s.m_bAverage = true → s1.m_averIndex < s1.m_noOfAverages))
      ∧ (s.m_bAverage = true → ∀ v, ∃ m s1, calcAverages s v = some (m, s1)
          ∧ s1.m_averIndex < s1.m_noOfAverages ∧ s1.m_averIndex < 32
          ∧ s1.m_averageStore.length = 32))
    ∧ (run (fun x => x) (fun a b => a * b) (loadCell (powerOn 1 (fun k => k)) 10)
        session).map (fun s => (s.m_noOfAverages, s.m_averIndex, s.m_bAverage))
        = some (3, 1, true) :=
  ⟨averaging_invariant (fun x => x) (fun a b => a * b) (powerOn 1 (fun k => k)) 10 session
      (by decide),
   by decide⟩

end LoadCell
